import Mathlib

/-!
Verification development for the slsm fast-marching module
(`FastMarchingMethod.h`) and the level-set output routines
(`InputOutput.cpp`).

The repository ships only the header of `FastMarchingMethod`; the bodies of
`march`, `initialiseFrozen`, `initialiseTrial`, `solve`, `updateNode`,
`finaliseVelocity` and `solveQuadratic` are not part of the sources.  Those
operations are therefore modelled from the specification (sections 3, 4 and 6
of the design document), as noted on each definition.  The output routines in
`InputOutput.cpp` are present in full and are embedded directly.

Floating-point doubles are idealised as real numbers.
-/

namespace FMM

/-- Node status, from `FMM_NodeStatus` in `FastMarchingMethod.h`:
NONE, FROZEN, TRIAL, MASKED. -/
inductive NodeStatus
  | NONE
  | FROZEN
  | TRIAL
  | MASKED
deriving DecidableEq, Repr

open NodeStatus

/-- Modelled from the spec: the mesh collaborator (sections 2 and 6).  A mesh
exposes a node count, a per-node 4-neighbour lookup (two axes, two sides per
axis, `Option.none` is the out-of-bounds sentinel) and a uniform grid
spacing `h`. -/
structure Mesh where
  nNodes : ℕ
  neighbour : ℕ → Bool → Bool → Option ℕ
  h : ℝ

/-- The list of (axis, side) slots of the 4-neighbour stencil. -/
def slots : List (Bool × Bool) := [(false, false), (false, true), (true, false), (true, true)]

/-- All existing neighbours of a node, in slot order. -/
def nbrList (m : Mesh) (i : ℕ) : List ℕ :=
  slots.filterMap fun p => m.neighbour i p.1 p.2

/-- A mesh is symmetric when every neighbour relation holds in both
directions (true of the structured grids the solver runs on). -/
def Mesh.Symm (m : Mesh) : Prop :=
  ∀ i a s j, m.neighbour i a s = some j → ∃ a' s', m.neighbour j a' s' = some i

/-- A mesh is well-formed when every neighbour relation stays inside the
node range (out-of-range lookups hit the out-of-bounds sentinel). -/
def Mesh.WF (m : Mesh) : Prop :=
  ∀ i a s j, m.neighbour i a s = some j → i < m.nNodes ∧ j < m.nNodes

/-- Modelled from the spec: the solver state (section 3).  `status` is the
per-node status table (`nodeStatus` in the header), `d` the working
signed-distance buffer (its magnitude part during the march), `v` the working
velocity buffer, and `q` the set of trial nodes held by the priority queue
(`heap`/`heapPtr` in the header); the queue key of a trial node `i` is its
current candidate absolute distance `d i`. -/
structure St where
  status : ℕ → NodeStatus
  d : ℕ → ℝ
  v : ℕ → ℝ
  q : List ℕ

/-- The value `std::numeric_limits<double>::max()` (`maxDouble` in the
header), idealised as the corresponding real number. -/
noncomputable def maxDouble : ℝ := (2 - 2 ^ (-52 : ℤ)) * 2 ^ 1023

/-- Modelled from the spec: `solveQuadratic` (section 4.4, degenerate cases
in section 7).  Solves `a·T² − b·T + c = 0` for the larger root; if `a = 0`
or the discriminant is negative it falls back to the supplied one-dimensional
estimate (best upwind neighbour value plus `h`). -/
noncomputable def solveQuadratic (a b c fallback : ℝ) : ℝ :=
  if a = 0 then fallback
  else if b ^ 2 - 4 * a * c < 0 then fallback
  else (b + Real.sqrt (b ^ 2 - 4 * a * c)) / (2 * a)

/-- The value of a neighbour slot when it exists and is frozen. -/
def frozenVal (s : St) : Option ℕ → Option ℝ
  | some j => if s.status j = FROZEN then some (s.d j) else Option.none
  | Option.none => Option.none

/-- Modelled from the spec: the upwind contributor of one axis (section 4.4):
among the frozen neighbours on the two sides of the axis, the one with the
smaller value (the working buffer holds absolute distances during the
march). -/
def upwind (m : Mesh) (s : St) (i : ℕ) (a : Bool) : Option ℝ :=
  match frozenVal s (m.neighbour i a false), frozenVal s (m.neighbour i a true) with
  | some u, some w => some (min u w)
  | some u, Option.none => some u
  | Option.none, some w => some w
  | Option.none, Option.none => Option.none

/-- The per-axis upwind values that contribute to the quadratic at a node. -/
def contributors (m : Mesh) (s : St) (i : ℕ) : List ℝ :=
  [upwind m s i false, upwind m s i true].filterMap id

/-- Modelled from the spec: `updateNode` (section 4.4).  Builds the quadratic
`a·T² − b·T + c = 0` from the contributing axes with `1/h²` weighting and
returns the root chosen by `solveQuadratic`; with no contributing axis the
guarded fallback returns `maxDouble`. -/
noncomputable def updateNode (m : Mesh) (s : St) (i : ℕ) : ℝ :=
  match contributors m s i with
  | [] => maxDouble
  | u :: rest =>
      let us := u :: rest
      let a : ℝ := (us.length : ℝ) / m.h ^ 2
      let b : ℝ := 2 * us.sum / m.h ^ 2
      let c : ℝ := (us.map (· ^ 2)).sum / m.h ^ 2 - 1
      solveQuadratic a b c (rest.foldr min u + m.h)

/-- Modelled from the spec: the per-edge sub-grid contribution of
`initialiseFrozen` (section 4.1): a directed edge from `i` to neighbour `j`
crosses the interface when `φ i · φ j < 0`, and then contributes the
linearly interpolated distance `h · |φ i| / |φ i − φ j|` along its axis. -/
noncomputable def edgeContribution (m : Mesh) (φ : ℕ → ℝ) (i : ℕ) (a s : Bool) : Option ℝ :=
  match m.neighbour i a s with
  | some j => if φ i * φ j < 0 then some (m.h * |φ i| / |φ i - φ j|) else Option.none
  | Option.none => Option.none

/-- Modelled from the spec: the per-axis boundary distance of
`initialiseFrozen` — the smaller of the two side contributions of the
axis, when at least one side crosses. -/
noncomputable def axisBoundaryDist (m : Mesh) (φ : ℕ → ℝ) (i : ℕ) (a : Bool) : Option ℝ :=
  match edgeContribution m φ i a false, edgeContribution m φ i a true with
  | some u, some w => some (min u w)
  | some u, Option.none => some u
  | Option.none, some w => some w
  | Option.none, Option.none => Option.none

/-- Modelled from the spec: the frozen magnitude of a boundary node
(section 4.1): the crossing axes are combined by the same rule as the
quadratic solve restricted to the crossing directions, `Σ (T/dₐ)² = 1`,
giving `T = dₓ·d_y / √(dₓ² + d_y²)` for two axes and `T = dₐ` for one. -/
noncomputable def boundaryDist (m : Mesh) (φ : ℕ → ℝ) (i : ℕ) : Option ℝ :=
  match axisBoundaryDist m φ i false, axisBoundaryDist m φ i true with
  | some dx, some dy => some (dx * dy / Real.sqrt (dx ^ 2 + dy ^ 2))
  | some dx, Option.none => some dx
  | Option.none, some dy => some dy
  | Option.none, Option.none => Option.none

/-- Modelled from the spec: `initialiseFrozen` (section 4.1).  Masked nodes
are skipped outright (masking takes precedence over crossings); a non-masked
node adjacent to at least one crossing is frozen with the interpolated
magnitude; every other node keeps its input value with status NONE.  The
caller-supplied velocity is kept unchanged everywhere, in particular at the
frozen boundary nodes. -/
noncomputable def initSt (m : Mesh) (φ : ℕ → ℝ) (masked : ℕ → Bool) (vel : ℕ → ℝ) : St where
  status := fun i =>
    if masked i then MASKED
    else match boundaryDist m φ i with
      | some _ => FROZEN
      | Option.none => NONE
  d := fun i =>
    if masked i then φ i
    else match boundaryDist m φ i with
      | some dist => dist
      | Option.none => φ i
  v := vel
  q := []

/-- The absolute distances of the nodes frozen by `initialiseFrozen`, in the
scan order of the initialiser's loop over the mesh nodes. -/
noncomputable def initFreezeSeq (m : Mesh) (φ : ℕ → ℝ) (masked : ℕ → Bool) (vel : ℕ → ℝ) : List ℝ :=
  ((List.range m.nNodes).filter fun i => (initSt m φ masked vel).status i = FROZEN).map
    (initSt m φ masked vel).d

/-- Whether a node has at least one frozen neighbour. -/
def hasFrozenNbr (m : Mesh) (s : St) (i : ℕ) : Prop :=
  ∃ j ∈ nbrList m i, s.status j = FROZEN

instance (m : Mesh) (s : St) (i : ℕ) : Decidable (hasFrozenNbr m s i) := by
  unfold hasFrozenNbr; infer_instance

/-- Modelled from the spec: `initialiseTrial` (section 4.2).  Every
non-frozen, non-masked node adjacent to a frozen node receives its first
candidate value from the per-node update rule, is marked TRIAL and is
inserted into the queue exactly once.  Because `initialiseTrial` runs after
all initial freezing and freezes nobody itself, the candidate of each such
node equals `updateNode` evaluated against the initialised state. -/
noncomputable def trialSt (m : Mesh) (φ : ℕ → ℝ) (masked : ℕ → Bool) (vel : ℕ → ℝ) : St :=
  let s := initSt m φ masked vel
  { status := fun i => if s.status i = NONE ∧ hasFrozenNbr m s i then TRIAL else s.status i
    d := fun i => if s.status i = NONE ∧ hasFrozenNbr m s i then updateNode m s i else s.d i
    v := s.v
    q := (List.range m.nNodes).filter fun i => s.status i = NONE ∧ hasFrozenNbr m s i }

/-- Pop the minimum-keyed element of the queue (ties resolved towards the
front), returning it with the remaining queue; `Option.none` on an empty
queue. -/
noncomputable def popMin (key : ℕ → ℝ) : List ℕ → Option (ℕ × List ℕ)
  | [] => Option.none
  | x :: xs =>
    match popMin key xs with
    | Option.none => some (x, [])
    | some (y, ys) => if key x ≤ key y then some (x, xs) else some (y, x :: ys)

/-- Modelled from the spec: the contributing axes of a node together with the
upwind neighbour velocity of each axis, for the extension scheme. -/
noncomputable def upwindWithVel (m : Mesh) (s : St) (i : ℕ) (a : Bool) : Option (ℝ × ℝ) :=
  match frozenVal s (m.neighbour i a false), frozenVal s (m.neighbour i a true) with
  | some u, some w =>
      if u ≤ w then some (u, s.v ((m.neighbour i a false).getD 0))
      else some (w, s.v ((m.neighbour i a true).getD 0))
  | some u, Option.none => some (u, s.v ((m.neighbour i a false).getD 0))
  | Option.none, some w => some (w, s.v ((m.neighbour i a true).getD 0))
  | Option.none, Option.none => Option.none

/-- Modelled from the spec: `finaliseVelocity` (section 4.4).  After the
distance `T` of the just-frozen node is fixed, its velocity becomes the
average of the upwind neighbours' velocities over the contributing axes,
weighted by the per-axis coefficients `(T − uₐ)/h²` of the distance solve.
Only the velocity of the node itself is written. -/
noncomputable def finaliseVelocity (m : Mesh) (s : St) (x : ℕ) : St :=
  let ps := [upwindWithVel m s x false, upwindWithVel m s x true].filterMap id
  let T := s.d x
  let wsum := (ps.map fun p => T - p.1).sum
  let vnew := if wsum = 0 then s.v x else (ps.map fun p => (T - p.1) * p.2).sum / wsum
  { s with v := Function.update s.v x vnew }

/-- Modelled from the spec: step 3 of the propagation engine (section 4.3)
for one neighbour of the just-frozen node.  A frozen or masked neighbour is
left alone; a trial neighbour has its candidate recomputed and decreased
exactly when the new value is strictly smaller; a NONE neighbour becomes
trial with its first candidate and is inserted into the queue. -/
noncomputable def updateNeighbour (m : Mesh) (s : St) (y : ℕ) : St :=
  match s.status y with
  | TRIAL =>
      let c := updateNode m s y
      if c < s.d y then { s with d := Function.update s.d y c } else s
  | NONE =>
      let c := updateNode m s y
      { s with
        d := Function.update s.d y c
        status := Function.update s.status y TRIAL
        q := y :: s.q }
  | _ => s

/-- Modelled from the spec: one iteration of the propagation engine
(section 4.3): pop the minimum-keyed trial node, freeze it, finalise its
velocity when velocity extension is active, and re-evaluate its non-frozen,
non-masked neighbours.  Returns the popped key with the next state, or
`Option.none` when the queue is empty. -/
noncomputable def solveStep (m : Mesh) (isVel : Bool) (s : St) : Option (ℝ × St) :=
  match popMin s.d s.q with
  | Option.none => Option.none
  | some (x, q') =>
      let s₁ : St := { s with q := q', status := Function.update s.status x FROZEN }
      let s₂ := if isVel then finaliseVelocity m s₁ x else s₁
      let s₃ := (nbrList m x).foldl (updateNeighbour m) s₂
      some (s.d x, s₃)

/-- Modelled from the spec: the propagation loop of `solve` (section 4.3),
with explicit fuel (each iteration freezes one node, so `nNodes` fuel always
reaches queue exhaustion).  Returns the sequence of popped keys — the
absolute distances in freeze order of the marching phase — together with the
final state. -/
noncomputable def solveAux (m : Mesh) (isVel : Bool) : ℕ → St → List ℝ × St
  | 0, s => ([], s)
  | fuel + 1, s =>
    match solveStep m isVel s with
    | Option.none => ([], s)
    | some (dx, s') =>
        let r := solveAux m isVel fuel s'
        (dx :: r.1, r.2)

/-- The state reached after `k` iterations of the propagation loop (the
state part of `solveAux`, without the pop trace). -/
noncomputable def stepN (m : Mesh) (isVel : Bool) : ℕ → St → St
  | 0, s => s
  | k + 1, s =>
    match solveStep m isVel s with
    | Option.none => s
    | some r => stepN m isVel k r.2

/-- The final state of a full run: freeze initialisation, trial
initialisation, then the propagation loop run to queue exhaustion. -/
noncomputable def runState (m : Mesh) (isVel : Bool) (φ : ℕ → ℝ) (masked : ℕ → Bool)
    (vel : ℕ → ℝ) : St :=
  (solveAux m isVel m.nNodes (trialSt m φ masked vel)).2

/-- The absolute distances of the nodes frozen by the propagation loop, in
freeze (pop) order. -/
noncomputable def popSeq (m : Mesh) (isVel : Bool) (φ : ℕ → ℝ) (masked : ℕ → Bool)
    (vel : ℕ → ℝ) : List ℝ :=
  (solveAux m isVel m.nNodes (trialSt m φ masked vel)).1

/-- The absolute distances of all nodes in freeze order over a whole run:
the initialiser's freeze sequence followed by the propagation pops. -/
noncomputable def freezeSeq (m : Mesh) (isVel : Bool) (φ : ℕ → ℝ) (masked : ℕ → Bool)
    (vel : ℕ → ℝ) : List ℝ :=
  initFreezeSeq m φ masked vel ++ popSeq m isVel φ masked vel

/-- Modelled from the spec: the distance-mode entry point
`march(std::vector<double>&)` (section 6).  The field is rewritten in place:
marched nodes receive the computed magnitude with the sign of their input
value restored from the retained copy (`signedDistanceCopy`), all other
nodes keep the value the working buffer holds for them. -/
noncomputable def march (m : Mesh) (φ : ℕ → ℝ) (masked : ℕ → Bool) : ℕ → ℝ :=
  let sf := runState m false φ masked fun _ => 0
  fun i => if sf.status i = FROZEN then (if φ i < 0 then -sf.d i else sf.d i) else sf.d i

/-- Modelled from the spec: the velocity-extension entry point
`march(std::vector<double>&, std::vector<double>&)` (section 6): the
distance result as in distance mode, together with the extended velocity
field. -/
noncomputable def marchVel (m : Mesh) (φ : ℕ → ℝ) (masked : ℕ → Bool) (vel : ℕ → ℝ) :
    (ℕ → ℝ) × (ℕ → ℝ) :=
  let sf := runState m true φ masked vel
  (fun i => if sf.status i = FROZEN then (if φ i < 0 then -sf.d i else sf.d i) else sf.d i,
   fun i => sf.v i)

/-- The queue invariant of the propagation loop: the priority queue holds
exactly the TRIAL nodes, without duplicates. -/
def QInv (s : St) : Prop :=
  (∀ i, i ∈ s.q ↔ s.status i = TRIAL) ∧ s.q.Nodup

/-- One hop of the non-masked adjacency relation: `j` is a neighbour of `i`
and neither node is masked. -/
def NbrStep (m : Mesh) (masked : ℕ → Bool) (i j : ℕ) : Prop :=
  j ∈ nbrList m i ∧ masked i = false ∧ masked j = false

/-- A node is reachable when a path of non-masked nodes connects some node
frozen by the initialiser to it (the initialiser's statuses do not depend on
the velocity field, so the zero velocity field is used). -/
def Reach (m : Mesh) (φ : ℕ → ℝ) (masked : ℕ → Bool) (i : ℕ) : Prop :=
  ∃ b, (initSt m φ masked fun _ => 0).status b = FROZEN ∧
    Relation.ReflTransGen (NbrStep m masked) b i

/-- Two states agree on their frozen data: the same nodes are frozen, with
the same distance values.  The per-node update reads only frozen
neighbours, so it cannot distinguish such states. -/
def FrozenEq (s s' : St) : Prop :=
  ∀ j, (s.status j = FROZEN ↔ s'.status j = FROZEN) ∧
    (s.status j = FROZEN → s.d j = s'.d j)

/-- The positivity invariant: every trial or frozen node carries a strictly
positive working distance. -/
def PInv (s : St) : Prop :=
  ∀ i, s.status i = TRIAL ∨ s.status i = FROZEN → 0 < s.d i

/-- The masking invariant: a node holds status MASKED exactly when the
caller masked it before the run. -/
def MaskInv (masked : ℕ → Bool) (s : St) : Prop :=
  ∀ i, s.status i = MASKED ↔ masked i = true

/-- The reachability invariant: every trial or frozen node is connected to
an initially frozen node by non-masked hops. -/
def ReachInv (m : Mesh) (φ : ℕ → ℝ) (masked : ℕ → Bool) (s : St) : Prop :=
  ∀ i, s.status i = TRIAL ∨ s.status i = FROZEN → Reach m φ masked i

/-- The monotone-front invariant of the propagation loop, relative to the
key `dLast` of the most recent pop: every trial candidate is within `m.h`
of each frozen neighbour's value, no trial candidate exceeds the per-node
update computed in the current state, a NONE node has no frozen neighbour,
and every trial key is at least `dLast`. -/
def MonoInv (m : Mesh) (dLast : ℝ) (s : St) : Prop :=
  (∀ y j, s.status y = TRIAL → j ∈ nbrList m y → s.status j = FROZEN →
    s.d y ≤ s.d j + m.h) ∧
  (∀ y, s.status y = TRIAL → s.d y ≤ updateNode m s y) ∧
  (∀ y, s.status y = NONE → ¬hasFrozenNbr m s y) ∧
  (∀ y, s.status y = TRIAL → dLast ≤ s.d y)

/-- A one-dimensional structured mesh: `n` nodes in a row along axis 0 with
spacing `h`; axis 1 has no neighbours. -/
def lineMesh (n : ℕ) (h : ℝ) : Mesh where
  nNodes := n
  neighbour := fun i a s =>
    if a then Option.none
    else if s then (if i + 1 < n then some (i + 1) else Option.none)
    else (if 0 < i ∧ i < n then some (i - 1) else Option.none)
  h := h

/-- The input field of the worked two-node example: values −1/2 and +1/2. -/
noncomputable def phiHalf : ℕ → ℝ := fun i => if i = 0 then -(1 / 2) else 1 / 2

/-- No node masked. -/
def noMask : ℕ → Bool := fun _ => false

/-- A constant caller-supplied velocity field. -/
noncomputable def velThree : ℕ → ℝ := fun _ => 3

/-- A three-node input field with a node sitting exactly on the zero level:
values −1, +1, 0. -/
noncomputable def phiZ : ℕ → ℝ := fun i => if i = 0 then -1 else if i = 1 then 1 else 0

/-- A two-node input field with an interface crossing far off-centre:
values −9/10, +1/10. -/
noncomputable def phiNine : ℕ → ℝ := fun i => if i = 0 then -(9 / 10) else 1 / 10

end FMM

namespace InOut

/-- The mesh data consumed by the output routines of `InputOutput.cpp`:
node count, grid width and height, and per-node coordinates. -/
structure Mesh where
  nNodes : ℕ
  width : ℕ
  height : ℕ
  coordX : ℕ → ℝ
  coordY : ℕ → ℝ

/-- The level-set data consumed by the output routines: the nodal
signed-distance buffer, addressable by node index. -/
structure LevelSet where
  signedDistance : ℕ → ℝ

/-- The sequence of nodal data values written by the POINT_DATA section of
`InputOutput::saveLevelSetVTK` (`InputOutput.cpp`, lines 49-51): the loop
`for i in [0, nNodes)` prints `levelSet.signedDistance[i]`. -/
def vtkPointData (mesh : Mesh) (levelSet : LevelSet) : List ℝ :=
  (List.range mesh.nNodes).map levelSet.signedDistance

/-- One output line of `InputOutput::saveLevelSetTXT` (`InputOutput.cpp`,
lines 80-84): the optional x/y coordinates followed by the nodal signed
distance. -/
def txtLine (isXY : Bool) (mesh : Mesh) (levelSet : LevelSet) (i : ℕ) : List ℝ :=
  (if isXY then [mesh.coordX i, mesh.coordY i] else []) ++ [levelSet.signedDistance i]

/-- The sequence of lines written by `InputOutput::saveLevelSetTXT`, one per
node in index order. -/
def txtLines (isXY : Bool) (mesh : Mesh) (levelSet : LevelSet) : List (List ℝ) :=
  (List.range mesh.nNodes).map (txtLine isXY mesh levelSet)

/-- The nodal data values written by `InputOutput::saveLevelSetTXT`, one per
node in index order (the last field of each line). -/
def txtData (mesh : Mesh) (levelSet : LevelSet) : List ℝ :=
  (List.range mesh.nNodes).map levelSet.signedDistance

/-- An `std::ostringstream` insertion of a value under field `width` and
fill character `fill` with right alignment (`num.width(4); num.fill('0');
num << std::right << datapoint` in `InputOutput.cpp`): the rendering is
padded on the left up to the field width, and left alone when it is already
at least that wide. -/
def padRight (width : ℕ) (fill : Char) (str : String) : String :=
  if str.length < width then String.mk (List.replicate (width - str.length) fill) ++ str
  else str

/-- The datapoint label built by the datapoint-indexed save overloads:
the datapoint number rendered right-aligned, zero-filled, field width 4. -/
def datapointString (datapoint : ℕ) : String :=
  padRight 4 '0' (toString datapoint)

/-- The file name built by `InputOutput::saveLevelSetVTK(datapoint, ...)`
(`InputOutput.cpp`, lines 13-22): the optional output directory and a slash,
then `level-set_`, the datapoint label and `.vtk`. -/
def vtkFileName (datapoint : ℕ) (outputDirectory : String) : String :=
  (if outputDirectory ≠ "" then outputDirectory ++ "/" else "") ++
    "level-set_" ++ datapointString datapoint ++ ".vtk"

/-- The file name built by `InputOutput::saveLevelSetTXT(datapoint, ...)`
(`InputOutput.cpp`, lines 58-67). -/
def txtFileName (datapoint : ℕ) (outputDirectory : String) : String :=
  (if outputDirectory ≠ "" then outputDirectory ++ "/" else "") ++
    "level-set_" ++ datapointString datapoint ++ ".txt"

/-- The file-name shape asserted by the specification: `level-set_`, the
datapoint number zero-padded on the left to width 4 (wider only when it has
more than 4 digits), the extension, all prefixed by the directory and a
slash exactly when the directory string is non-empty. -/
def specFileName (datapoint : ℕ) (outputDirectory : String) (ext : String) : String :=
  (if outputDirectory = "" then "" else outputDirectory ++ "/") ++
    "level-set_" ++
    (String.mk (List.replicate (4 - (toString datapoint).length) '0') ++
      toString datapoint) ++ ext

end InOut

namespace FMM

/-- A concrete two-node mesh: node 0 has node 1 as its sole neighbour
(axis 0, upper side), spacing 1. -/
def cMesh : Mesh :=
  ⟨2, fun i a s => if i = 0 ∧ a = false ∧ s = true then some 1 else Option.none, 1⟩

/-- A concrete state on `cMesh`: node 1 frozen at distance 0. -/
def cSt : St :=
  ⟨fun i => if i = 1 then NodeStatus.FROZEN else NodeStatus.NONE, fun _ => 0, fun _ => 0, []⟩

end FMM

/-- A concrete two-node mesh for exercising the output routines. -/
def wMeshOut : InOut.Mesh := ⟨2, 2, 1, fun _ => 0, fun _ => 0⟩

/-- A concrete level set on `wMeshOut`. -/
def wLevelSetOut : InOut.LevelSet := ⟨fun i => (i : ℝ)⟩

theorem padRight_eq_replicate (w : ℕ) (f : Char) (str : String) :
    InOut.padRight w f str = String.mk (List.replicate (w - str.length) f) ++ str := by
  unfold InOut.padRight
  by_cases h : str.length < w
  · simp [h]
  · rw [if_neg h, Nat.sub_eq_zero_of_le (le_of_not_lt h)]
    cases str
    rfl

/-- C9: the level-set save routines write exactly `mesh.nNodes` data values,
one per node, the `k`-th being `signedDistance[k]`, in the order of the
mesh's node enumeration. -/
theorem saveLevelSet_writes_nodal_values_in_order (mesh : InOut.Mesh)
    (levelSet : InOut.LevelSet) (isXYAny : Bool) :
    (InOut.vtkPointData mesh levelSet).length = mesh.nNodes ∧
    (InOut.txtData mesh levelSet).length = mesh.nNodes ∧
    (∀ isXY, (InOut.txtLines isXY mesh levelSet).length = mesh.nNodes) ∧
    ∀ k, k < mesh.nNodes →
      (InOut.vtkPointData mesh levelSet).get? k = some (levelSet.signedDistance k) ∧
      (InOut.txtData mesh levelSet).get? k = some (levelSet.signedDistance k) ∧
      (InOut.txtLines isXYAny mesh levelSet).get? k =
        some (InOut.txtLine isXYAny mesh levelSet k) := by
  refine ⟨by simp [InOut.vtkPointData], by simp [InOut.txtData],
    fun isXY => by simp [InOut.txtLines], fun k hk => ?_⟩
  refine ⟨?_, ?_, ?_⟩ <;>
    simp [InOut.vtkPointData, InOut.txtData, InOut.txtLines, List.getElem?_map,
      List.getElem?_range hk]

/-- Witness for C9 at a concrete mesh and level set. -/
theorem saveLevelSet_writes_nodal_values_in_order_witness :
    1 < wMeshOut.nNodes ∧
    (InOut.vtkPointData wMeshOut wLevelSetOut).get? 1 =
      some (wLevelSetOut.signedDistance 1) :=
  ⟨by decide,
    ((saveLevelSet_writes_nodal_values_in_order wMeshOut wLevelSetOut false).2.2.2 1
      (by decide)).1⟩

/-- C10: the datapoint-indexed save overloads name their output file
`level-set_` followed by the datapoint number zero-padded on the left to
width 4 (wider only when it has more than four digits) and the extension,
prefixed by the output directory and a slash exactly when the directory
string is non-empty. -/
theorem saveLevelSet_fileName_format (datapoint : ℕ) (outputDirectory : String) :
    InOut.vtkFileName datapoint outputDirectory =
      InOut.specFileName datapoint outputDirectory ".vtk" ∧
    InOut.txtFileName datapoint outputDirectory =
      InOut.specFileName datapoint outputDirectory ".txt" ∧
    (InOut.datapointString datapoint).length =
      max 4 (toString datapoint).length := by
  have hpad := padRight_eq_replicate 4 '0' (toString datapoint)
  refine ⟨?_, ?_, ?_⟩
  · unfold InOut.vtkFileName InOut.specFileName InOut.datapointString
    rw [hpad]
    by_cases h : outputDirectory = "" <;> simp [h]
  · unfold InOut.txtFileName InOut.specFileName InOut.datapointString
    rw [hpad]
    by_cases h : outputDirectory = "" <;> simp [h]
  · unfold InOut.datapointString
    rw [hpad]
    rw [String.length_append]
    simp only [String.length_mk, List.length_replicate]
    omega

namespace FMM

theorem foldr_min_le (u : ℝ) (rest : List ℝ) :
    rest.foldr min u ≤ u ∧ ∀ x ∈ rest, rest.foldr min u ≤ x := by
  induction rest with
  | nil => simp
  | cons a t ih =>
    refine ⟨le_trans (min_le_right _ _) ih.1, ?_⟩
    intro x hx
    rcases List.mem_cons.mp hx with h | h
    · exact h ▸ min_le_left _ _
    · exact le_trans (min_le_right _ _) (ih.2 x h)

theorem foldr_min_mem (u : ℝ) (rest : List ℝ) : rest.foldr min u ∈ u :: rest := by
  induction rest with
  | nil => simp
  | cons a t ih =>
    have hfold : (a :: t).foldr min u = min a (t.foldr min u) := rfl
    rw [hfold]
    rcases le_total a (t.foldr min u) with h | h
    · rw [min_eq_left h]
      simp
    · rw [min_eq_right h]
      rcases List.mem_cons.mp ih with h' | h'
      · rw [h']
        simp
      · exact List.mem_cons_of_mem _ (List.mem_cons_of_mem _ h')

/-- C4: for every quadratic `a·T² − b·T + c = 0` assembled by the per-node
update: with `a = 0` the result is the fallback (best upwind value plus
`h`); with negative discriminant the result is the one-dimensional estimate
(smaller upwind value plus `h`); otherwise the result is a root of the
quadratic and no other root exceeds it (the larger algebraic root).  The
last conjunct ties the assembly to `updateNode`: the per-node update passes
exactly these coefficients and the smallest upwind value plus `h` as
fallback. -/
theorem solveQuadratic_root_selection (a b c fallback : ℝ) :
    (a = 0 → solveQuadratic a b c fallback = fallback) ∧
    (b ^ 2 - 4 * a * c < 0 → solveQuadratic a b c fallback = fallback) ∧
    (0 < a → 0 ≤ b ^ 2 - 4 * a * c →
      a * solveQuadratic a b c fallback ^ 2 - b * solveQuadratic a b c fallback + c = 0 ∧
      ∀ r, a * r ^ 2 - b * r + c = 0 → r ≤ solveQuadratic a b c fallback) ∧
    ∀ (m : Mesh) (s : St) (i : ℕ) (u : ℝ) (rest : List ℝ),
      contributors m s i = u :: rest →
      updateNode m s i =
        solveQuadratic (((u :: rest).length : ℝ) / m.h ^ 2)
          (2 * (u :: rest).sum / m.h ^ 2)
          (((u :: rest).map (· ^ 2)).sum / m.h ^ 2 - 1)
          (rest.foldr min u + m.h) ∧
      rest.foldr min u ≤ u ∧ ∀ x ∈ rest, rest.foldr min u ≤ x := by
  refine ⟨fun ha => by simp [solveQuadratic, ha], ?_, ?_, ?_⟩
  · intro hdisc
    unfold solveQuadratic
    by_cases ha : a = 0
    · simp [ha]
    · simp [ha, hdisc]
  · intro ha hdisc
    have hane : a ≠ 0 := ne_of_gt ha
    have hval : solveQuadratic a b c fallback =
        (b + Real.sqrt (b ^ 2 - 4 * a * c)) / (2 * a) := by
      unfold solveQuadratic
      simp [hane, not_lt.mpr hdisc]
    have hs : Real.sqrt (b ^ 2 - 4 * a * c) ^ 2 = b ^ 2 - 4 * a * c :=
      Real.sq_sqrt hdisc
    have hsn : 0 ≤ Real.sqrt (b ^ 2 - 4 * a * c) := Real.sqrt_nonneg _
    set s := Real.sqrt (b ^ 2 - 4 * a * c) with hsdef
    rw [hval]
    constructor
    · field_simp
      ring_nf
      nlinarith [hs]
    · intro r hr
      have h1 : (2 * a * r - b) ^ 2 = s ^ 2 := by nlinarith [hr, hs]
      have h2 : 2 * a * r - b ≤ s := by nlinarith [h1, hsn]
      rw [le_div_iff₀ (by linarith : (0:ℝ) < 2 * a)]
      linarith
  · intro m s i u rest hus
    refine ⟨?_, foldr_min_le u rest⟩
    unfold updateNode
    rw [hus]

/-- Witness for C4: the quadratic `T² − 1 = 0` (that is `a = 1`, `b = 0`,
`c = −1`) has positive leading coefficient and discriminant 4, and the value
returned by `solveQuadratic` is one of its roots. -/
theorem solveQuadratic_root_selection_witness :
    (0:ℝ) < 1 ∧ (0:ℝ) ≤ 0 ^ 2 - 4 * 1 * (-1) ∧
    1 * solveQuadratic 1 0 (-1) 37 ^ 2 - 0 * solveQuadratic 1 0 (-1) 37 + (-1) = 0 :=
  ⟨by norm_num, by norm_num,
    ((solveQuadratic_root_selection 1 0 (-1) 37).2.2.1 (by norm_num) (by norm_num)).1⟩

end FMM


namespace FMM

open NodeStatus

theorem popMin_nil (key : ℕ → ℝ) : popMin key [] = Option.none := rfl

theorem popMin_cons_isSome (key : ℕ → ℝ) (x : ℕ) (xs : List ℕ) :
    (popMin key (x :: xs)).isSome := by
  unfold popMin
  split
  · rfl
  · split <;> rfl

theorem popMin_eq_none (key : ℕ → ℝ) (q : List ℕ) (h : popMin key q = Option.none) :
    q = [] := by
  cases q with
  | nil => rfl
  | cons x xs =>
    have := popMin_cons_isSome key x xs
    rw [h] at this
    cases this

theorem popMin_perm (key : ℕ → ℝ) :
    ∀ (q : List ℕ) (x : ℕ) (q' : List ℕ),
      popMin key q = some (x, q') → q.Perm (x :: q') := by
  intro q
  induction q with
  | nil => intro x q' h; cases h
  | cons a as ih =>
    intro x q' h
    unfold popMin at h
    split at h
    · rename_i heq
      have has : as = [] := popMin_eq_none key as heq
      subst has
      cases h
      exact List.Perm.refl _
    · rename_i y ys heq
      split at h <;> cases h
      · exact List.Perm.refl _
      · exact (List.Perm.cons a (ih _ _ heq)).trans (List.Perm.swap _ _ _)

theorem popMin_le (key : ℕ → ℝ) :
    ∀ (q : List ℕ) (x : ℕ) (q' : List ℕ),
      popMin key q = some (x, q') → ∀ z ∈ q, key x ≤ key z := by
  intro q
  induction q with
  | nil => intro x q' h; cases h
  | cons a as ih =>
    intro x q' h z hz
    unfold popMin at h
    split at h
    · rename_i heq
      have has : as = [] := popMin_eq_none key as heq
      subst has
      cases h
      rcases List.mem_cons.mp hz with rfl | hmem
      · exact le_refl _
      · cases hmem
    · rename_i y ys heq
      split at h <;> cases h
      · rename_i hk
        rcases List.mem_cons.mp hz with rfl | hmem
        · exact le_refl _
        · exact le_trans hk (ih _ _ heq z hmem)
      · rename_i hk
        rcases List.mem_cons.mp hz with rfl | hmem
        · exact le_of_lt (lt_of_not_le hk)
        · exact ih _ _ heq z hmem

theorem updateNeighbour_frozen_masked (m : Mesh) (s : St) (y : ℕ)
    (h : s.status y = FROZEN ∨ s.status y = MASKED) :
    updateNeighbour m s y = s := by
  unfold updateNeighbour
  rcases h with h | h <;> rw [h]

theorem updateNeighbour_status (m : Mesh) (s : St) (y j : ℕ) :
    (updateNeighbour m s y).status j =
      if j = y ∧ s.status y = NONE then TRIAL else s.status j := by
  unfold updateNeighbour
  split
  · rename_i heq
    dsimp only
    split <;> simp [heq]
  · rename_i heq
    by_cases hjy : j = y
    · subst hjy
      rw [if_pos ⟨rfl, heq⟩]
      simp [Function.update_apply]
    · rw [if_neg (by simp [hjy])]
      simp [Function.update_apply, hjy]
  · rename_i h1 h2
    rw [if_neg (by rintro ⟨_, hc⟩; exact h2 hc)]

theorem updateNeighbour_v (m : Mesh) (s : St) (y : ℕ) :
    (updateNeighbour m s y).v = s.v := by
  unfold updateNeighbour
  split
  · dsimp only
    split <;> rfl
  · rfl
  · rfl

theorem updateNeighbour_q (m : Mesh) (s : St) (y : ℕ) :
    (updateNeighbour m s y).q = if s.status y = NONE then y :: s.q else s.q := by
  unfold updateNeighbour
  split
  · rename_i heq
    dsimp only
    split <;> simp [heq]
  · rename_i heq
    rw [if_pos heq]
  · rename_i h1 h2
    rw [if_neg h2]

theorem updateNeighbour_d_ne (m : Mesh) (s : St) (y j : ℕ) (h : j ≠ y) :
    (updateNeighbour m s y).d j = s.d j := by
  unfold updateNeighbour
  split
  · dsimp only
    split
    · simp [Function.update_apply, h]
    · rfl
  · simp [Function.update_apply, h]
  · rfl

theorem updateNeighbour_d_trial (m : Mesh) (s : St) (y : ℕ) (h : s.status y = TRIAL) :
    (updateNeighbour m s y).d y = s.d y ∨
      ((updateNeighbour m s y).d y = updateNode m s y ∧ updateNode m s y < s.d y) := by
  unfold updateNeighbour
  split
  · dsimp only
    split
    · rename_i hlt
      right
      exact ⟨by simp [Function.update_apply], hlt⟩
    · left; rfl
  · rename_i heq
    rw [heq] at h
    cases h
  · rename_i h1 h2
    exact absurd h h1

theorem updateNeighbour_d_none (m : Mesh) (s : St) (y : ℕ) (h : s.status y = NONE) :
    (updateNeighbour m s y).d y = updateNode m s y := by
  unfold updateNeighbour
  split
  · rename_i heq
    rw [heq] at h
    cases h
  · simp [Function.update_apply]
  · rename_i h1 h2
    exact absurd h h2

theorem foldl_updateNeighbour_status (m : Mesh) (l : List ℕ) (s : St) (j : ℕ) :
    (l.foldl (updateNeighbour m) s).status j =
      if j ∈ l ∧ s.status j = NONE then TRIAL else s.status j := by
  induction l generalizing s with
  | nil => simp
  | cons a t ih =>
    rw [List.foldl_cons, ih, updateNeighbour_status]
    by_cases hja : j = a
    · subst hja
      by_cases hn : s.status j = NONE
      · simp [hn]
      · simp [hn]
    · by_cases hn : s.status j = NONE
      · simp [hja, hn]
      · simp [hja, hn]

theorem foldl_updateNeighbour_d_frozen_masked (m : Mesh) (l : List ℕ) (s : St) (j : ℕ)
    (hj : s.status j = FROZEN ∨ s.status j = MASKED) :
    (l.foldl (updateNeighbour m) s).d j = s.d j := by
  induction l generalizing s with
  | nil => rfl
  | cons a t ih =>
    rw [List.foldl_cons]
    by_cases hja : j = a
    · subst hja
      rw [updateNeighbour_frozen_masked m s j hj]
      exact ih s hj
    · have hst : (updateNeighbour m s a).status j = s.status j := by
        rw [updateNeighbour_status]
        simp [hja]
      rw [ih _ (by rw [hst]; exact hj), updateNeighbour_d_ne m s a j hja]

theorem foldl_updateNeighbour_d_not_mem (m : Mesh) (l : List ℕ) (s : St) (j : ℕ)
    (hj : j ∉ l) :
    (l.foldl (updateNeighbour m) s).d j = s.d j := by
  induction l generalizing s with
  | nil => rfl
  | cons a t ih =>
    rw [List.foldl_cons]
    have hja : j ≠ a := fun h => hj (h ▸ List.mem_cons_self a t)
    rw [ih _ (fun h => hj (List.mem_cons_of_mem a h)), updateNeighbour_d_ne m s a j hja]

theorem foldl_updateNeighbour_v (m : Mesh) (l : List ℕ) (s : St) :
    (l.foldl (updateNeighbour m) s).v = s.v := by
  induction l generalizing s with
  | nil => rfl
  | cons a t ih =>
    rw [List.foldl_cons, ih, updateNeighbour_v]

theorem foldl_updateNeighbour_queue (m : Mesh) (l : List ℕ) (s : St)
    (hg3 : ∀ i, i ∈ s.q ↔ s.status i = TRIAL) (hg4 : s.q.Nodup) :
    (∀ i, i ∈ (l.foldl (updateNeighbour m) s).q ↔
        (l.foldl (updateNeighbour m) s).status i = TRIAL) ∧
      (l.foldl (updateNeighbour m) s).q.Nodup := by
  induction l generalizing s with
  | nil => exact ⟨hg3, hg4⟩
  | cons a t ih =>
    rw [List.foldl_cons]
    apply ih
    · intro i
      rw [updateNeighbour_q, updateNeighbour_status]
      by_cases hn : s.status a = NONE
      · rw [if_pos hn]
        by_cases hia : i = a
        · subst hia
          simp [hn]
        · simp [hia, hg3 i]
      · rw [if_neg hn]
        by_cases hia : i = a
        · subst hia
          simp [hn, hg3 i]
        · simp [hia, hg3 i]
    · rw [updateNeighbour_q]
      by_cases hn : s.status a = NONE
      · rw [if_pos hn]
        refine List.Nodup.cons ?_ hg4
        intro hmem
        rw [hg3 a, hn] at hmem
        cases hmem
      · rw [if_neg hn]
        exact hg4

theorem finaliseVelocity_status (m : Mesh) (s : St) (x : ℕ) :
    (finaliseVelocity m s x).status = s.status := rfl

theorem finaliseVelocity_d (m : Mesh) (s : St) (x : ℕ) :
    (finaliseVelocity m s x).d = s.d := rfl

theorem finaliseVelocity_q (m : Mesh) (s : St) (x : ℕ) :
    (finaliseVelocity m s x).q = s.q := rfl

theorem finaliseVelocity_v_ne (m : Mesh) (s : St) (x j : ℕ) (h : j ≠ x) :
    (finaliseVelocity m s x).v j = s.v j := by
  unfold finaliseVelocity
  simp [Function.update_apply, h]

theorem ite_vel_status (m : Mesh) (b : Bool) (s : St) (x : ℕ) :
    (if b then finaliseVelocity m s x else s).status = s.status := by
  cases b <;> simp [finaliseVelocity_status]

theorem ite_vel_d (m : Mesh) (b : Bool) (s : St) (x : ℕ) :
    (if b then finaliseVelocity m s x else s).d = s.d := by
  cases b <;> simp [finaliseVelocity_d]

theorem ite_vel_q (m : Mesh) (b : Bool) (s : St) (x : ℕ) :
    (if b then finaliseVelocity m s x else s).q = s.q := by
  cases b <;> simp [finaliseVelocity_q]

theorem ite_vel_v_ne (m : Mesh) (b : Bool) (s : St) (x j : ℕ) (h : j ≠ x) :
    (if b then finaliseVelocity m s x else s).v j = s.v j := by
  cases b <;> simp [finaliseVelocity_v_ne m s x j h]

theorem solveStep_some (m : Mesh) (isVel : Bool) (s : St) (dx : ℝ) (s' : St)
    (h : solveStep m isVel s = some (dx, s')) :
    ∃ x q', popMin s.d s.q = some (x, q') ∧ dx = s.d x ∧
      s' = (nbrList m x).foldl (updateNeighbour m)
        (if isVel then
          finaliseVelocity m { s with q := q', status := Function.update s.status x FROZEN } x
         else { s with q := q', status := Function.update s.status x FROZEN }) := by
  unfold solveStep at h
  split at h
  · cases h
  · rename_i x q' heq
    cases h
    exact ⟨x, q', heq, rfl, rfl⟩

theorem solveStep_none_iff (m : Mesh) (isVel : Bool) (s : St) :
    solveStep m isVel s = Option.none ↔ s.q = [] := by
  unfold solveStep
  constructor
  · intro h
    split at h
    · rename_i heq
      exact popMin_eq_none s.d s.q heq
    · cases h
  · intro h
    rw [h]
    rfl

theorem solveStep_pop_trial (m : Mesh) (isVel : Bool) (s : St) (dx : ℝ) (s' : St)
    (h : solveStep m isVel s = some (dx, s'))
    (hq : ∀ i, i ∈ s.q ↔ s.status i = TRIAL) :
    ∃ x q', popMin s.d s.q = some (x, q') ∧ s.status x = TRIAL ∧ x ∈ s.q := by
  obtain ⟨x, q', hpop, _, _⟩ := solveStep_some m isVel s dx s' h
  have hxq : x ∈ s.q :=
    ((popMin_perm s.d s.q x q' hpop).mem_iff).mpr (List.mem_cons_self x q')
  exact ⟨x, q', hpop, (hq x).mp hxq, hxq⟩

theorem solveStep_frozen (m : Mesh) (isVel : Bool) (s : St) (dx : ℝ) (s' : St)
    (h : solveStep m isVel s = some (dx, s'))
    (hq : ∀ i, i ∈ s.q ↔ s.status i = TRIAL) (i : ℕ) (hi : s.status i = FROZEN) :
    s'.status i = FROZEN ∧ s'.d i = s.d i ∧ s'.v i = s.v i := by
  obtain ⟨x, q', hpop, hdx, hs'⟩ := solveStep_some m isVel s dx s' h
  have hxq : x ∈ s.q :=
    ((popMin_perm s.d s.q x q' hpop).mem_iff).mpr (List.mem_cons_self x q')
  have hxt : s.status x = TRIAL := (hq x).mp hxq
  have hix : i ≠ x := by
    intro he
    rw [he, hxt] at hi
    cases hi
  have hmidst :
      ((if isVel then
          finaliseVelocity m { s with q := q', status := Function.update s.status x FROZEN } x
        else { s with q := q', status := Function.update s.status x FROZEN })).status i =
        FROZEN := by
    rw [ite_vel_status]
    show Function.update s.status x FROZEN i = FROZEN
    simp [Function.update_apply, hix, hi]
  refine ⟨?_, ?_, ?_⟩
  · rw [hs', foldl_updateNeighbour_status, hmidst]
    simp
  · rw [hs', foldl_updateNeighbour_d_frozen_masked _ _ _ _ (Or.inl hmidst)]
    have : ((if isVel then
        finaliseVelocity m { s with q := q', status := Function.update s.status x FROZEN } x
      else { s with q := q', status := Function.update s.status x FROZEN })).d = s.d := by
      rw [ite_vel_d]
    rw [this]
  · rw [hs', foldl_updateNeighbour_v]
    exact ite_vel_v_ne m isVel _ x i hix

theorem solveStep_masked (m : Mesh) (isVel : Bool) (s : St) (dx : ℝ) (s' : St)
    (h : solveStep m isVel s = some (dx, s'))
    (hq : ∀ i, i ∈ s.q ↔ s.status i = TRIAL) (i : ℕ) (hi : s.status i = MASKED) :
    s'.status i = MASKED ∧ s'.d i = s.d i ∧ s'.v i = s.v i := by
  obtain ⟨x, q', hpop, hdx, hs'⟩ := solveStep_some m isVel s dx s' h
  have hxq : x ∈ s.q :=
    ((popMin_perm s.d s.q x q' hpop).mem_iff).mpr (List.mem_cons_self x q')
  have hxt : s.status x = TRIAL := (hq x).mp hxq
  have hix : i ≠ x := by
    intro he
    rw [he, hxt] at hi
    cases hi
  have hmidst :
      ((if isVel then
          finaliseVelocity m { s with q := q', status := Function.update s.status x FROZEN } x
        else { s with q := q', status := Function.update s.status x FROZEN })).status i =
        MASKED := by
    rw [ite_vel_status]
    show Function.update s.status x FROZEN i = MASKED
    simp [Function.update_apply, hix, hi]
  refine ⟨?_, ?_, ?_⟩
  · rw [hs', foldl_updateNeighbour_status, hmidst]
    simp
  · rw [hs', foldl_updateNeighbour_d_frozen_masked _ _ _ _ (Or.inr hmidst)]
    have : ((if isVel then
        finaliseVelocity m { s with q := q', status := Function.update s.status x FROZEN } x
      else { s with q := q', status := Function.update s.status x FROZEN })).d = s.d := by
      rw [ite_vel_d]
    rw [this]
  · rw [hs', foldl_updateNeighbour_v]
    exact ite_vel_v_ne m isVel _ x i hix

theorem solveStep_none_rev (m : Mesh) (isVel : Bool) (s : St) (dx : ℝ) (s' : St)
    (h : solveStep m isVel s = some (dx, s')) (i : ℕ) (hi : s'.status i = NONE) :
    s.status i = NONE ∧ s'.d i = s.d i ∧ s'.v i = s.v i := by
  obtain ⟨x, q', hpop, hdx, hs'⟩ := solveStep_some m isVel s dx s' h
  have hmid := hi
  rw [hs', foldl_updateNeighbour_status] at hmid
  by_cases hc : i ∈ nbrList m x ∧
      ((if isVel then
          finaliseVelocity m { s with q := q', status := Function.update s.status x FROZEN } x
        else { s with q := q', status := Function.update s.status x FROZEN })).status i = NONE
  · rw [if_pos hc] at hmid
    cases hmid
  · rw [if_neg hc] at hmid
    have hmidup : Function.update s.status x FROZEN i = NONE := by
      have := hmid
      rw [ite_vel_status] at this
      exact this
    have hix : i ≠ x := by
      intro he
      rw [he] at hmidup
      simp [Function.update_apply] at hmidup
    have hsi : s.status i = NONE := by
      rw [Function.update_apply, if_neg hix] at hmidup
      exact hmidup
    have hnotmem : i ∉ nbrList m x := by
      intro hmem
      exact hc ⟨hmem, by rw [ite_vel_status]; exact hmidup⟩
    refine ⟨hsi, ?_, ?_⟩
    · rw [hs', foldl_updateNeighbour_d_not_mem _ _ _ _ hnotmem]
      have : ((if isVel then
          finaliseVelocity m { s with q := q', status := Function.update s.status x FROZEN } x
        else { s with q := q', status := Function.update s.status x FROZEN })).d = s.d := by
        rw [ite_vel_d]
      rw [this]
    · rw [hs', foldl_updateNeighbour_v]
      exact ite_vel_v_ne m isVel _ x i hix

theorem solveStep_QInv (m : Mesh) (isVel : Bool) (s : St) (dx : ℝ) (s' : St)
    (h : solveStep m isVel s = some (dx, s')) (hs : QInv s) : QInv s' := by
  obtain ⟨hq, hnd⟩ := hs
  obtain ⟨x, q', hpop, hdx, hs'⟩ := solveStep_some m isVel s dx s' h
  have hperm := popMin_perm s.d s.q x q' hpop
  have hnd' : (x :: q').Nodup := hperm.nodup_iff.mp hnd
  have hxq' : x ∉ q' := (List.nodup_cons.mp hnd').1
  have hq'nd : q'.Nodup := (List.nodup_cons.mp hnd').2
  have hmem : ∀ i, i ∈ q' ↔ (i ∈ s.q ∧ i ≠ x) := by
    intro i
    constructor
    · intro hiq
      refine ⟨hperm.mem_iff.mpr (List.mem_cons_of_mem x hiq), ?_⟩
      intro he
      exact hxq' (he ▸ hiq)
    · rintro ⟨hiq, hne⟩
      rcases List.mem_cons.mp (hperm.mem_iff.mp hiq) with rfl | hmem
      · exact absurd rfl hne
      · exact hmem
  have hmidq : ∀ i, i ∈ q' ↔
      Function.update s.status x FROZEN i = TRIAL := by
    intro i
    rw [hmem i, Function.update_apply]
    by_cases hix : i = x
    · subst hix
      simp [hxq']
    · simp [hix, hq i]
  subst hs'
  have := foldl_updateNeighbour_queue m (nbrList m x)
    (if isVel then
        finaliseVelocity m { s with q := q', status := Function.update s.status x FROZEN } x
      else { s with q := q', status := Function.update s.status x FROZEN })
    (by
      intro i
      rw [ite_vel_q, ite_vel_status]
      exact hmidq i)
    (by rw [ite_vel_q]; exact hq'nd)
  exact this

theorem solveAux_snd_eq_stepN (m : Mesh) (isVel : Bool) :
    ∀ (k : ℕ) (s : St), (solveAux m isVel k s).2 = stepN m isVel k s := by
  intro k
  induction k with
  | zero => intro s; rfl
  | succ k ih =>
    intro s
    unfold solveAux stepN
    cases h : solveStep m isVel s with
    | none => rfl
    | some r => exact ih r.2

theorem stepN_QInv (m : Mesh) (isVel : Bool) :
    ∀ (k : ℕ) (s : St), QInv s → QInv (stepN m isVel k s) := by
  intro k
  induction k with
  | zero => intro s hs; exact hs
  | succ k ih =>
    intro s hs
    unfold stepN
    cases h : solveStep m isVel s with
    | none => exact hs
    | some r => exact ih r.2 (solveStep_QInv m isVel s r.1 r.2 (by rw [h]) hs)

theorem stepN_frozen (m : Mesh) (isVel : Bool) :
    ∀ (k : ℕ) (s : St), QInv s → ∀ i, s.status i = FROZEN →
      (stepN m isVel k s).status i = FROZEN ∧
        (stepN m isVel k s).d i = s.d i ∧ (stepN m isVel k s).v i = s.v i := by
  intro k
  induction k with
  | zero => intro s _ i hi; exact ⟨hi, rfl, rfl⟩
  | succ k ih =>
    intro s hs i hi
    unfold stepN
    cases h : solveStep m isVel s with
    | none => exact ⟨hi, rfl, rfl⟩
    | some r =>
      obtain ⟨h1, h2, h3⟩ :=
        solveStep_frozen m isVel s r.1 r.2 (by rw [h]) hs.1 i hi
      obtain ⟨g1, g2, g3⟩ :=
        ih r.2 (solveStep_QInv m isVel s r.1 r.2 (by rw [h]) hs) i h1
      exact ⟨g1, by rw [g2, h2], by rw [g3, h3]⟩

theorem stepN_masked (m : Mesh) (isVel : Bool) :
    ∀ (k : ℕ) (s : St), QInv s → ∀ i, s.status i = MASKED →
      (stepN m isVel k s).status i = MASKED ∧
        (stepN m isVel k s).d i = s.d i ∧ (stepN m isVel k s).v i = s.v i := by
  intro k
  induction k with
  | zero => intro s _ i hi; exact ⟨hi, rfl, rfl⟩
  | succ k ih =>
    intro s hs i hi
    unfold stepN
    cases h : solveStep m isVel s with
    | none => exact ⟨hi, rfl, rfl⟩
    | some r =>
      obtain ⟨h1, h2, h3⟩ :=
        solveStep_masked m isVel s r.1 r.2 (by rw [h]) hs.1 i hi
      obtain ⟨g1, g2, g3⟩ :=
        ih r.2 (solveStep_QInv m isVel s r.1 r.2 (by rw [h]) hs) i h1
      exact ⟨g1, by rw [g2, h2], by rw [g3, h3]⟩

theorem stepN_none_rev (m : Mesh) (isVel : Bool) :
    ∀ (k : ℕ) (s : St) (i : ℕ), (stepN m isVel k s).status i = NONE →
      s.status i = NONE ∧
        (stepN m isVel k s).d i = s.d i ∧ (stepN m isVel k s).v i = s.v i := by
  intro k
  induction k with
  | zero => intro s i hi; exact ⟨hi, rfl, rfl⟩
  | succ k ih =>
    intro s i hi
    unfold stepN at hi ⊢
    cases h : solveStep m isVel s with
    | none =>
      rw [h] at hi
      exact ⟨hi, rfl, rfl⟩
    | some r =>
      rw [h] at hi
      obtain ⟨g1, g2, g3⟩ := ih r.2 i hi
      obtain ⟨h1, h2, h3⟩ := solveStep_none_rev m isVel s r.1 r.2 (by rw [h]) i g1
      exact ⟨h1, by rw [g2, h2], by rw [g3, h3]⟩

theorem initSt_status_ne_trial (m : Mesh) (φ : ℕ → ℝ) (masked : ℕ → Bool)
    (vel : ℕ → ℝ) (i : ℕ) : (initSt m φ masked vel).status i ≠ TRIAL := by
  unfold initSt
  dsimp only
  by_cases hm : masked i
  · simp [hm]
  · simp only [hm, if_false]
    cases boundaryDist m φ i <;> simp

theorem hasFrozenNbr_lt (m : Mesh) (hwf : m.WF) (s : St) (i : ℕ)
    (h : hasFrozenNbr m s i) : i < m.nNodes := by
  obtain ⟨j, hj, _⟩ := h
  unfold nbrList at hj
  obtain ⟨p, _, hp⟩ := List.mem_filterMap.mp hj
  exact (hwf i p.1 p.2 j hp).1

theorem trialSt_QInv (m : Mesh) (φ : ℕ → ℝ) (masked : ℕ → Bool) (vel : ℕ → ℝ)
    (hwf : m.WF) : QInv (trialSt m φ masked vel) := by
  constructor
  · intro i
    show i ∈ (List.range m.nNodes).filter _ ↔ _
    rw [List.mem_filter, List.mem_range]
    constructor
    · rintro ⟨hlt, hp⟩
      have hp' := of_decide_eq_true hp
      show (if _ then TRIAL else _) = TRIAL
      rw [if_pos hp']
    · intro hst
      have hp : (initSt m φ masked vel).status i = NONE ∧
          hasFrozenNbr m (initSt m φ masked vel) i := by
        by_contra hc
        have : (trialSt m φ masked vel).status i = (initSt m φ masked vel).status i := by
          show (if _ then TRIAL else _) = _
          rw [if_neg hc]
        rw [hst] at this
        exact initSt_status_ne_trial m φ masked vel i this.symm
      exact ⟨hasFrozenNbr_lt m hwf _ i hp.2, decide_eq_true hp⟩
  · exact (List.nodup_range m.nNodes).filter _
theorem runState_eq_stepN (m : Mesh) (isVel : Bool) (φ : ℕ → ℝ) (masked : ℕ → Bool)
    (vel : ℕ → ℝ) :
    runState m isVel φ masked vel = stepN m isVel m.nNodes (trialSt m φ masked vel) := by
  unfold runState
  rw [solveAux_snd_eq_stepN]

theorem trialSt_v (m : Mesh) (φ : ℕ → ℝ) (masked : ℕ → Bool) (vel : ℕ → ℝ) :
    (trialSt m φ masked vel).v = vel := rfl

theorem trialSt_preserves_not_none (m : Mesh) (φ : ℕ → ℝ) (masked : ℕ → Bool)
    (vel : ℕ → ℝ) (i : ℕ) (h : (initSt m φ masked vel).status i ≠ NONE) :
    (trialSt m φ masked vel).status i = (initSt m φ masked vel).status i ∧
      (trialSt m φ masked vel).d i = (initSt m φ masked vel).d i := by
  have hc : ¬((initSt m φ masked vel).status i = NONE ∧
      hasFrozenNbr m (initSt m φ masked vel) i) := fun hx => h hx.1
  constructor
  · show (if _ then TRIAL else _) = _
    rw [if_neg hc]
  · show (if _ then updateNode m _ i else _) = _
    rw [if_neg hc]

theorem lineMesh_WF (n : ℕ) (h : ℝ) : (lineMesh n h).WF := by
  intro i a s j hj
  unfold lineMesh at hj
  dsimp only at hj
  show i < n ∧ j < n
  split at hj
  · cases hj
  · split at hj
    · split at hj
      · rename_i hlt
        cases hj
        omega
      · cases hj
    · split at hj
      · rename_i hlt
        cases hj
        omega
      · cases hj

theorem lineMesh_Symm (n : ℕ) (h : ℝ) : (lineMesh n h).Symm := by
  intro i a s j hj
  unfold lineMesh at hj ⊢
  dsimp only at hj ⊢
  split at hj
  · cases hj
  · split at hj
    · split at hj
      · rename_i hlt
        cases hj
        refine ⟨false, false, ?_⟩
        simp only [Bool.false_eq_true, if_false]
        rw [if_pos (by omega : 0 < i + 1 ∧ i + 1 < n)]
        rw [Nat.add_sub_cancel]
      · cases hj
    · split at hj
      · rename_i hlt
        cases hj
        refine ⟨false, true, ?_⟩
        simp only [Bool.false_eq_true, if_false, if_true]
        rw [if_pos (by omega : i - 1 + 1 < n)]
        congr 1
        omega
      · cases hj

theorem stepN_empty_q (m : Mesh) (isVel : Bool) (k : ℕ) (s : St) (h : s.q = []) :
    stepN m isVel k s = s := by
  cases k with
  | zero => rfl
  | succ k =>
    unfold stepN
    rw [(solveStep_none_iff m isVel s).mpr h]

theorem edgeContribution_eq (m : Mesh) (φ : ℕ → ℝ) (i : ℕ) (a s : Bool) (j : ℕ)
    (hj : m.neighbour i a s = some j) (hcross : φ i * φ j < 0) :
    edgeContribution m φ i a s = some (m.h * |φ i| / |φ i - φ j|) := by
  unfold edgeContribution
  rw [hj]
  show (if φ i * φ j < 0 then some (m.h * |φ i| / |φ i - φ j|) else Option.none) =
    some (m.h * |φ i| / |φ i - φ j|)
  rw [if_pos hcross]

theorem lineTwo_boundaryDist0 : boundaryDist (lineMesh 2 2) phiHalf 0 = some 1 := by
  have h0 : edgeContribution (lineMesh 2 2) phiHalf 0 false false = Option.none := rfl
  have h1 : edgeContribution (lineMesh 2 2) phiHalf 0 false true = some 1 := by
    have hj : (lineMesh 2 2).neighbour 0 false true = some 1 := rfl
    rw [edgeContribution_eq (lineMesh 2 2) phiHalf 0 false true 1 hj
      (by norm_num [phiHalf])]
    congr 1
    rw [show phiHalf 0 - phiHalf 1 = -1 from by norm_num [phiHalf],
      show phiHalf 0 = -(1 / 2 : ℝ) from by norm_num [phiHalf]]
    rw [abs_neg, abs_neg, abs_one, abs_of_nonneg (by norm_num : (0:ℝ) ≤ 1 / 2)]
    show (2 : ℝ) * (1 / 2) / 1 = 1
    norm_num
  have hax0 : axisBoundaryDist (lineMesh 2 2) phiHalf 0 false = some 1 := by
    unfold axisBoundaryDist
    rw [h0, h1]
  have hax1 : axisBoundaryDist (lineMesh 2 2) phiHalf 0 true = Option.none := rfl
  unfold boundaryDist
  rw [hax0, hax1]

theorem lineTwo_boundaryDist1 : boundaryDist (lineMesh 2 2) phiHalf 1 = some 1 := by
  have h0 : edgeContribution (lineMesh 2 2) phiHalf 1 false false = some 1 := by
    have hj : (lineMesh 2 2).neighbour 1 false false = some 0 := rfl
    rw [edgeContribution_eq (lineMesh 2 2) phiHalf 1 false false 0 hj
      (by norm_num [phiHalf])]
    congr 1
    rw [show phiHalf 1 - phiHalf 0 = 1 from by norm_num [phiHalf],
      show phiHalf 1 = (1 / 2 : ℝ) from by norm_num [phiHalf]]
    rw [abs_one, abs_of_nonneg (by norm_num : (0:ℝ) ≤ 1 / 2)]
    show (2 : ℝ) * (1 / 2) / 1 = 1
    norm_num
  have h1 : edgeContribution (lineMesh 2 2) phiHalf 1 false true = Option.none := rfl
  have hax0 : axisBoundaryDist (lineMesh 2 2) phiHalf 1 false = some 1 := by
    unfold axisBoundaryDist
    rw [h0, h1]
  have hax1 : axisBoundaryDist (lineMesh 2 2) phiHalf 1 true = Option.none := rfl
  unfold boundaryDist
  rw [hax0, hax1]

theorem lineTwo_initSt (vel : ℕ → ℝ) :
    (initSt (lineMesh 2 2) phiHalf noMask vel).status 0 = FROZEN ∧
    (initSt (lineMesh 2 2) phiHalf noMask vel).status 1 = FROZEN ∧
    (initSt (lineMesh 2 2) phiHalf noMask vel).d 0 = 1 ∧
    (initSt (lineMesh 2 2) phiHalf noMask vel).d 1 = 1 := by
  unfold initSt
  dsimp only
  rw [lineTwo_boundaryDist0, lineTwo_boundaryDist1]
  simp [noMask]

theorem lineTwo_trialSt_q (vel : ℕ → ℝ) :
    (trialSt (lineMesh 2 2) phiHalf noMask vel).q = [] := by
  show List.filter _ _ = []
  rw [List.filter_eq_nil_iff]
  intro a ha
  rw [List.mem_range] at ha
  have ha' : a < 2 := ha
  simp only [decide_eq_true_eq, not_and]
  intro hnone
  exfalso
  have ha2 : a = 0 ∨ a = 1 := by omega
  rcases ha2 with rfl | rfl
  · rw [(lineTwo_initSt vel).1] at hnone
    cases hnone
  · rw [(lineTwo_initSt vel).2.1] at hnone
    cases hnone

theorem lineTwo_runState (isVel : Bool) (vel : ℕ → ℝ) :
    runState (lineMesh 2 2) isVel phiHalf noMask vel =
      trialSt (lineMesh 2 2) phiHalf noMask vel := by
  rw [runState_eq_stepN]
  exact stepN_empty_q _ _ _ _ (lineTwo_trialSt_q vel)

theorem lineTwo_trialSt_frozen (vel : ℕ → ℝ) :
    (trialSt (lineMesh 2 2) phiHalf noMask vel).status 0 = FROZEN ∧
    (trialSt (lineMesh 2 2) phiHalf noMask vel).status 1 = FROZEN ∧
    (trialSt (lineMesh 2 2) phiHalf noMask vel).d 0 = 1 ∧
    (trialSt (lineMesh 2 2) phiHalf noMask vel).d 1 = 1 := by
  obtain ⟨s0, s1, d0, d1⟩ := lineTwo_initSt vel
  obtain ⟨a0, b0⟩ := trialSt_preserves_not_none (lineMesh 2 2) phiHalf noMask vel 0
    (by rw [s0]; intro hx; cases hx)
  obtain ⟨a1, b1⟩ := trialSt_preserves_not_none (lineMesh 2 2) phiHalf noMask vel 1
    (by rw [s1]; intro hx; cases hx)
  exact ⟨by rw [a0, s0], by rw [a1, s1], by rw [b0, d0], by rw [b1, d1]⟩

theorem lineTwo_march :
    march (lineMesh 2 2) phiHalf noMask 0 = -1 ∧
    march (lineMesh 2 2) phiHalf noMask 1 = 1 := by
  have hrun := lineTwo_runState false (fun _ => 0)
  obtain ⟨s0, s1, d0, d1⟩ := lineTwo_trialSt_frozen (fun _ => 0)
  constructor
  · show (if (runState (lineMesh 2 2) false phiHalf noMask fun _ => 0).status 0 = FROZEN
        then (if phiHalf 0 < 0
          then -(runState (lineMesh 2 2) false phiHalf noMask fun _ => 0).d 0
          else (runState (lineMesh 2 2) false phiHalf noMask fun _ => 0).d 0)
        else (runState (lineMesh 2 2) false phiHalf noMask fun _ => 0).d 0) = (-1 : ℝ)
    rw [hrun, s0, d0, if_pos rfl, if_pos (by norm_num [phiHalf])]
  · show (if (runState (lineMesh 2 2) false phiHalf noMask fun _ => 0).status 1 = FROZEN
        then (if phiHalf 1 < 0
          then -(runState (lineMesh 2 2) false phiHalf noMask fun _ => 0).d 1
          else (runState (lineMesh 2 2) false phiHalf noMask fun _ => 0).d 1)
        else (runState (lineMesh 2 2) false phiHalf noMask fun _ => 0).d 1) = (1 : ℝ)
    rw [hrun, s1, d1, if_pos rfl, if_neg (by norm_num [phiHalf])]

/-- C3: once a node is FROZEN, its distance value (and, in velocity mode,
its velocity value) is never modified by any later step of the run; in
particular every node frozen by the initialiser still holds its interpolated
distance and its supplied boundary velocity when the march returns. -/
theorem frozen_values_never_modified (m : Mesh) (isVel : Bool) (φ : ℕ → ℝ)
    (masked : ℕ → Bool) (vel : ℕ → ℝ) (hwf : m.WF) (i : ℕ) :
    (∀ (k : ℕ) (s : St), QInv s → s.status i = FROZEN →
      (stepN m isVel k s).status i = FROZEN ∧
        (stepN m isVel k s).d i = s.d i ∧ (stepN m isVel k s).v i = s.v i) ∧
    ((initSt m φ masked vel).status i = FROZEN →
      (runState m isVel φ masked vel).status i = FROZEN ∧
        (runState m isVel φ masked vel).d i = (initSt m φ masked vel).d i ∧
        (runState m isVel φ masked vel).v i = vel i) := by
  constructor
  · intro k s hs hi
    exact stepN_frozen m isVel k s hs i hi
  · intro hinit
    obtain ⟨hts, htd⟩ := trialSt_preserves_not_none m φ masked vel i
      (by rw [hinit]; intro hx; cases hx)
    have hQ := trialSt_QInv m φ masked vel hwf
    have hstep := stepN_frozen m isVel m.nNodes (trialSt m φ masked vel) hQ i
      (by rw [hts, hinit])
    rw [runState_eq_stepN]
    refine ⟨hstep.1, ?_, ?_⟩
    · rw [hstep.2.1, htd]
    · rw [hstep.2.2, trialSt_v]

/-- Witness for C3 on the two-node example: node 0 is frozen by the
initialiser and retains its interpolated distance and its supplied velocity
after the run. -/
theorem frozen_values_never_modified_witness :
    (lineMesh 2 2).WF ∧
    (initSt (lineMesh 2 2) phiHalf noMask velThree).status 0 = FROZEN ∧
    ((runState (lineMesh 2 2) true phiHalf noMask velThree).status 0 = FROZEN ∧
      (runState (lineMesh 2 2) true phiHalf noMask velThree).d 0 =
        (initSt (lineMesh 2 2) phiHalf noMask velThree).d 0 ∧
      (runState (lineMesh 2 2) true phiHalf noMask velThree).v 0 = velThree 0) :=
  ⟨lineMesh_WF 2 2, (lineTwo_initSt velThree).1,
    (frozen_values_never_modified (lineMesh 2 2) true phiHalf noMask velThree
      (lineMesh_WF 2 2) 0).2 (lineTwo_initSt velThree).1⟩

/-- C6: a node masked before the run keeps status MASKED and its input
distance and velocity values at every step, never enters the queue, is
skipped by the frozen-set initialiser, and is returned untouched by both
march entry points. -/
theorem masked_nodes_untouched (m : Mesh) (isVel : Bool) (φ : ℕ → ℝ)
    (masked : ℕ → Bool) (vel : ℕ → ℝ) (hwf : m.WF) (i : ℕ) (hm : masked i = true) :
    (initSt m φ masked vel).status i = MASKED ∧
    (initSt m φ masked vel).d i = φ i ∧
    (∀ k : ℕ,
      (stepN m isVel k (trialSt m φ masked vel)).status i = MASKED ∧
      (stepN m isVel k (trialSt m φ masked vel)).d i = φ i ∧
      (stepN m isVel k (trialSt m φ masked vel)).v i = vel i ∧
      i ∉ (stepN m isVel k (trialSt m φ masked vel)).q) ∧
    march m φ masked i = φ i ∧
    (marchVel m φ masked vel).1 i = φ i ∧
    (marchVel m φ masked vel).2 i = vel i := by
  have hinit_s : (initSt m φ masked vel).status i = MASKED := by
    show (if masked i then MASKED else _) = MASKED
    rw [if_pos hm]
  have hinit_d : (initSt m φ masked vel).d i = φ i := by
    show (if masked i then φ i else _) = φ i
    rw [if_pos hm]
  have hgen : ∀ (b : Bool) (w : ℕ → ℝ),
      (runState m b φ masked w).status i = MASKED ∧
      (runState m b φ masked w).d i = φ i ∧
      (runState m b φ masked w).v i = w i := by
    intro b w
    have hinit_s' : (initSt m φ masked w).status i = MASKED := by
      show (if masked i then MASKED else _) = MASKED
      rw [if_pos hm]
    have hinit_d' : (initSt m φ masked w).d i = φ i := by
      show (if masked i then φ i else _) = φ i
      rw [if_pos hm]
    obtain ⟨hts, htd⟩ := trialSt_preserves_not_none m φ masked w i
      (by rw [hinit_s']; intro hx; cases hx)
    have hQ := trialSt_QInv m φ masked w hwf
    have hstep := stepN_masked m b m.nNodes (trialSt m φ masked w) hQ i
      (by rw [hts, hinit_s'])
    rw [runState_eq_stepN]
    exact ⟨hstep.1, by rw [hstep.2.1, htd, hinit_d'], by rw [hstep.2.2, trialSt_v]⟩
  refine ⟨hinit_s, hinit_d, ?_, ?_, ?_, ?_⟩
  · intro k
    obtain ⟨hts, htd⟩ := trialSt_preserves_not_none m φ masked vel i
      (by rw [hinit_s]; intro hx; cases hx)
    have hQ := trialSt_QInv m φ masked vel hwf
    have hstep := stepN_masked m isVel k (trialSt m φ masked vel) hQ i
      (by rw [hts, hinit_s])
    have hQk := stepN_QInv m isVel k (trialSt m φ masked vel) hQ
    refine ⟨hstep.1, by rw [hstep.2.1, htd, hinit_d], by rw [hstep.2.2, trialSt_v], ?_⟩
    intro hmem
    have := (hQk.1 i).mp hmem
    rw [hstep.1] at this
    cases this
  · show (if (runState m false φ masked fun _ => 0).status i = FROZEN
        then (if φ i < 0 then -(runState m false φ masked fun _ => 0).d i
          else (runState m false φ masked fun _ => 0).d i)
        else (runState m false φ masked fun _ => 0).d i) = φ i
    rw [if_neg (by rw [(hgen false fun _ => 0).1]; intro hx; cases hx)]
    exact (hgen false fun _ => 0).2.1
  · show (if (runState m true φ masked vel).status i = FROZEN
        then (if φ i < 0 then -(runState m true φ masked vel).d i
          else (runState m true φ masked vel).d i)
        else (runState m true φ masked vel).d i) = φ i
    rw [if_neg (by rw [(hgen true vel).1]; intro hx; cases hx)]
    exact (hgen true vel).2.1
  · exact (hgen true vel).2.2

/-- Witness for C6: in a three-node line with a crossing between nodes 0 and
1, the masked node 2 is returned with its input value. -/
theorem masked_nodes_untouched_witness :
    (lineMesh 3 1).WF ∧ (fun i : ℕ => decide (i = 2)) 2 = true ∧
    march (lineMesh 3 1) phiHalf (fun i : ℕ => decide (i = 2)) 2 = phiHalf 2 :=
  ⟨lineMesh_WF 3 1, by decide,
    (masked_nodes_untouched (lineMesh 3 1) false phiHalf (fun i : ℕ => decide (i = 2))
      (fun _ => 0) (lineMesh_WF 3 1) 2 (by decide)).2.2.2.1⟩

/-- C7: for every directed pair of adjacent nodes with input values of
opposite sign, the frozen-set initialiser's sub-grid contribution along that
axis is h·|φᵢ|/|φᵢ−φⱼ|; on two adjacent nodes with values −1/2 and +1/2 at
spacing h = 2 the interpolated distance at each node is 1. -/
theorem initialiser_interpolation (m : Mesh) (φ : ℕ → ℝ) (i : ℕ) (a s : Bool)
    (j : ℕ) (hj : m.neighbour i a s = some j) (hcross : φ i * φ j < 0) :
    edgeContribution m φ i a s = some (m.h * |φ i| / |φ i - φ j|) ∧
    (initSt (lineMesh 2 2) phiHalf noMask velThree).d 0 = 1 ∧
    (initSt (lineMesh 2 2) phiHalf noMask velThree).d 1 = 1 :=
  ⟨edgeContribution_eq m φ i a s j hj hcross,
    (lineTwo_initSt velThree).2.2.1, (lineTwo_initSt velThree).2.2.2⟩

/-- Witness for C7 at the crossing edge of the two-node example. -/
theorem initialiser_interpolation_witness :
    (lineMesh 2 2).neighbour 0 false true = some 1 ∧
    phiHalf 0 * phiHalf 1 < 0 ∧
    edgeContribution (lineMesh 2 2) phiHalf 0 false true =
      some ((lineMesh 2 2).h * |phiHalf 0| / |phiHalf 0 - phiHalf 1|) :=
  ⟨rfl, by norm_num [phiHalf],
    (initialiser_interpolation (lineMesh 2 2) phiHalf 0 false true 1 rfl
      (by norm_num [phiHalf])).1⟩

theorem foldl_updateNeighbour_d_trial (m : Mesh) (l : List ℕ) (s : St) (j : ℕ)
    (hj : s.status j = TRIAL) :
    (l.foldl (updateNeighbour m) s).d j = s.d j ∨
      (l.foldl (updateNeighbour m) s).d j < s.d j := by
  induction l generalizing s with
  | nil => exact Or.inl rfl
  | cons a t ih =>
    rw [List.foldl_cons]
    have hst : (updateNeighbour m s a).status j = TRIAL := by
      rw [updateNeighbour_status]
      split
      · rfl
      · exact hj
    by_cases hja : j = a
    · subst hja
      rcases updateNeighbour_d_trial m s j hj with hd | ⟨hd, hlt⟩
      · rcases ih (updateNeighbour m s j) hst with h | h
        · exact Or.inl (by rw [h, hd])
        · exact Or.inr (by rw [hd] at h; exact h)
      · rcases ih (updateNeighbour m s j) hst with h | h
        · exact Or.inr (by rw [h, hd]; exact hlt)
        · exact Or.inr (lt_trans (by rw [hd] at h; exact h) hlt)
    · have hd : (updateNeighbour m s a).d j = s.d j := updateNeighbour_d_ne m s a j hja
      rcases ih (updateNeighbour m s a) hst with h | h
      · exact Or.inl (by rw [h, hd])
      · exact Or.inr (by rw [hd] at h; exact h)

theorem foldl_updateNeighbour_q_sub (m : Mesh) (l : List ℕ) (s : St) (i : ℕ)
    (h : i ∈ (l.foldl (updateNeighbour m) s).q) :
    i ∈ s.q ∨ s.status i = NONE := by
  induction l generalizing s with
  | nil => exact Or.inl h
  | cons a t ih =>
    rw [List.foldl_cons] at h
    rcases ih (updateNeighbour m s a) h with hmem | hst
    · rw [updateNeighbour_q] at hmem
      by_cases hn : s.status a = NONE
      · rw [if_pos hn] at hmem
        rcases List.mem_cons.mp hmem with rfl | hmem'
        · exact Or.inr hn
        · exact Or.inl hmem'
      · rw [if_neg hn] at hmem
        exact Or.inl hmem
    · rw [updateNeighbour_status] at hst
      split at hst
      · cases hst
      · exact Or.inr hst

theorem solveStep_decrease_only (m : Mesh) (isVel : Bool) (s : St) (dx : ℝ) (s' : St)
    (hQ : QInv s) (h : solveStep m isVel s = some (dx, s')) :
    (∀ i, i ∈ s.q → i ∈ s'.q → (s'.d i = s.d i ∨ s'.d i < s.d i)) ∧
    ∀ i, i ∈ s'.q → i ∈ s.q ∨ s.status i = NONE := by
  obtain ⟨x, q', hpop, hdx, hs'⟩ := solveStep_some m isVel s dx s' h
  have hperm := popMin_perm s.d s.q x q' hpop
  have hnd' : (x :: q').Nodup := hperm.nodup_iff.mp hQ.2
  constructor
  · intro i hiq hiq'
    have hit : s.status i = TRIAL := (hQ.1 i).mp hiq
    have hix : i ≠ x := by
      intro he
      have hsub := foldl_updateNeighbour_q_sub m (nbrList m x) _ i (hs' ▸ hiq')
      rcases hsub with hmem | hst
      · rw [ite_vel_q] at hmem
        exact (List.nodup_cons.mp hnd').1 (he ▸ hmem)
      · rw [ite_vel_status] at hst
        have h2 : Function.update s.status x FROZEN i = NONE := hst
        rw [he] at h2
        simp [Function.update_apply] at h2
    have hmid : ((if isVel then
        finaliseVelocity m { s with q := q', status := Function.update s.status x FROZEN } x
      else { s with q := q', status := Function.update s.status x FROZEN })).status i =
        TRIAL := by
      rw [ite_vel_status]
      show Function.update s.status x FROZEN i = TRIAL
      rw [Function.update_apply, if_neg hix]
      exact hit
    have hmd : ((if isVel then
        finaliseVelocity m { s with q := q', status := Function.update s.status x FROZEN } x
      else { s with q := q', status := Function.update s.status x FROZEN })).d i = s.d i := by
      rw [ite_vel_d]
    have hdec := foldl_updateNeighbour_d_trial m (nbrList m x) _ i hmid
    rw [hmd] at hdec
    rw [hs']
    exact hdec
  · intro i hiq'
    have hsub := foldl_updateNeighbour_q_sub m (nbrList m x) _ i (hs' ▸ hiq')
    rcases hsub with hmem | hst
    · rw [ite_vel_q] at hmem
      exact Or.inl (hperm.mem_iff.mpr (List.mem_cons_of_mem x hmem))
    · rw [ite_vel_status] at hst
      have h2 : Function.update s.status x FROZEN i = NONE := hst
      have hix : i ≠ x := by
        intro he
        rw [he] at h2
        simp [Function.update_apply] at h2
      rw [Function.update_apply, if_neg hix] at h2
      exact Or.inr h2

/-- C5: at every iteration of the propagation loop the priority queue holds
exactly the TRIAL nodes (keyed, by construction of the state, by the current
candidate absolute distance `d`), without duplicates; across a step a
surviving trial node's key never increases (decrease-key only, and only when
the new candidate is strictly smaller), and only NONE-status nodes are ever
newly inserted, so a node enters the queue at most once per run. -/
theorem queue_contains_exactly_trial (m : Mesh) (isVel : Bool) (φ : ℕ → ℝ)
    (masked : ℕ → Bool) (vel : ℕ → ℝ) (hwf : m.WF) :
    (∀ k : ℕ, QInv (stepN m isVel k (trialSt m φ masked vel))) ∧
    ∀ (s : St) (dx : ℝ) (s' : St), QInv s → solveStep m isVel s = some (dx, s') →
      (∀ i, i ∈ s.q → i ∈ s'.q → (s'.d i = s.d i ∨ s'.d i < s.d i)) ∧
      ∀ i, i ∈ s'.q → i ∈ s.q ∨ s.status i = NONE := by
  refine ⟨fun k => stepN_QInv m isVel k _ (trialSt_QInv m φ masked vel hwf), ?_⟩
  intro s dx s' hQ h
  exact solveStep_decrease_only m isVel s dx s' hQ h

/-- Witness for C5 on the two-node example. -/
theorem queue_contains_exactly_trial_witness :
    (lineMesh 2 2).WF ∧
    QInv (stepN (lineMesh 2 2) false 0 (trialSt (lineMesh 2 2) phiHalf noMask velThree)) :=
  ⟨lineMesh_WF 2 2,
    (queue_contains_exactly_trial (lineMesh 2 2) false phiHalf noMask velThree
      (lineMesh_WF 2 2)).1 0⟩

theorem nbrList_symm (m : Mesh) (hsym : m.Symm) (i j : ℕ) (hj : j ∈ nbrList m i) :
    i ∈ nbrList m j := by
  unfold nbrList at hj ⊢
  obtain ⟨p, hp, hpj⟩ := List.mem_filterMap.mp hj
  obtain ⟨a', s', ha'⟩ := hsym i p.1 p.2 j hpj
  refine List.mem_filterMap.mpr ⟨(a', s'), ?_, ha'⟩
  unfold slots
  cases a' <;> cases s' <;> simp

theorem initSt_masked_iff (m : Mesh) (φ : ℕ → ℝ) (masked : ℕ → Bool) (vel : ℕ → ℝ)
    (i : ℕ) : (initSt m φ masked vel).status i = MASKED ↔ masked i = true := by
  show (if masked i then MASKED else _) = MASKED ↔ _
  by_cases hm : masked i = true
  · simp [hm]
  · rw [if_neg hm]
    cases hbd : boundaryDist m φ i <;> simp [hbd, hm]

theorem initSt_none_d (m : Mesh) (φ : ℕ → ℝ) (masked : ℕ → Bool) (vel : ℕ → ℝ)
    (i : ℕ) (hst : (initSt m φ masked vel).status i = NONE) :
    (initSt m φ masked vel).d i = φ i := by
  have hst' : (if masked i then MASKED
      else match boundaryDist m φ i with
        | some _ => FROZEN
        | Option.none => NONE) = NONE := hst
  show (if masked i then φ i else _) = φ i
  by_cases hm : masked i = true
  · rw [if_pos hm] at hst'
    cases hst'
  · rw [if_neg hm] at hst' ⊢
    cases hbd : boundaryDist m φ i with
    | none => rfl
    | some w =>
      rw [hbd] at hst'
      cases hst'

theorem trialSt_status_trial (m : Mesh) (φ : ℕ → ℝ) (masked : ℕ → Bool) (vel : ℕ → ℝ)
    (i : ℕ) (h : (trialSt m φ masked vel).status i = TRIAL) :
    (initSt m φ masked vel).status i = NONE ∧
      hasFrozenNbr m (initSt m φ masked vel) i := by
  by_contra hc
  have h2 : (trialSt m φ masked vel).status i = (initSt m φ masked vel).status i := by
    show (if _ then TRIAL else _) = _
    rw [if_neg hc]
  rw [h] at h2
  exact initSt_status_ne_trial m φ masked vel i h2.symm

theorem trialSt_status_none (m : Mesh) (φ : ℕ → ℝ) (masked : ℕ → Bool) (vel : ℕ → ℝ)
    (i : ℕ) (h : (trialSt m φ masked vel).status i = NONE) :
    (initSt m φ masked vel).status i = NONE ∧
      (trialSt m φ masked vel).d i = φ i := by
  by_cases hc : (initSt m φ masked vel).status i = NONE ∧
      hasFrozenNbr m (initSt m φ masked vel) i
  · have h2 : (trialSt m φ masked vel).status i = TRIAL := by
      show (if _ then TRIAL else _) = TRIAL
      rw [if_pos hc]
    rw [h] at h2
    cases h2
  · have h2 : (trialSt m φ masked vel).status i = (initSt m φ masked vel).status i := by
      show (if _ then TRIAL else _) = _
      rw [if_neg hc]
    rw [h] at h2
    have h3 : (trialSt m φ masked vel).d i = (initSt m φ masked vel).d i := by
      show (if _ then updateNode m _ i else _) = _
      rw [if_neg hc]
    exact ⟨h2.symm, by rw [h3, initSt_none_d m φ masked vel i h2.symm]⟩

theorem trialSt_MaskInv (m : Mesh) (φ : ℕ → ℝ) (masked : ℕ → Bool) (vel : ℕ → ℝ) :
    MaskInv masked (trialSt m φ masked vel) := by
  intro i
  constructor
  · intro h
    by_cases hc : (initSt m φ masked vel).status i = NONE ∧
        hasFrozenNbr m (initSt m φ masked vel) i
    · have h2 : (trialSt m φ masked vel).status i = TRIAL := by
        show (if _ then TRIAL else _) = TRIAL
        rw [if_pos hc]
      rw [h] at h2
      cases h2
    · have h2 : (trialSt m φ masked vel).status i = (initSt m φ masked vel).status i := by
        show (if _ then TRIAL else _) = _
        rw [if_neg hc]
      rw [h] at h2
      exact (initSt_masked_iff m φ masked vel i).mp h2.symm
  · intro hm
    have h2 : (initSt m φ masked vel).status i = MASKED :=
      (initSt_masked_iff m φ masked vel i).mpr hm
    have h3 : ¬((initSt m φ masked vel).status i = NONE ∧
        hasFrozenNbr m (initSt m φ masked vel) i) := by
      rintro ⟨hn, _⟩
      rw [h2] at hn
      cases hn
    show (if _ then TRIAL else _) = MASKED
    rw [if_neg h3]
    exact h2

theorem initSt_frozen_vel_indep (m : Mesh) (φ : ℕ → ℝ) (masked : ℕ → Bool)
    (vel : ℕ → ℝ) (i : ℕ) (h : (initSt m φ masked vel).status i = FROZEN) :
    (initSt m φ masked fun _ => 0).status i = FROZEN := h

theorem initSt_frozen_not_masked (m : Mesh) (φ : ℕ → ℝ) (masked : ℕ → Bool)
    (vel : ℕ → ℝ) (i : ℕ) (h : (initSt m φ masked vel).status i = FROZEN) :
    masked i = false := by
  cases hm : masked i
  · rfl
  · rw [(initSt_masked_iff m φ masked vel i).mpr hm] at h
    cases h

theorem initSt_none_not_masked (m : Mesh) (φ : ℕ → ℝ) (masked : ℕ → Bool)
    (vel : ℕ → ℝ) (i : ℕ) (h : (initSt m φ masked vel).status i = NONE) :
    masked i = false := by
  cases hm : masked i
  · rfl
  · rw [(initSt_masked_iff m φ masked vel i).mpr hm] at h
    cases h

theorem trialSt_ReachInv (m : Mesh) (φ : ℕ → ℝ) (masked : ℕ → Bool) (vel : ℕ → ℝ)
    (hsym : m.Symm) : ReachInv m φ masked (trialSt m φ masked vel) := by
  intro i hi
  rcases hi with hi | hi
  · obtain ⟨hn, j, hjmem, hjfz⟩ := trialSt_status_trial m φ masked vel i hi
    refine ⟨j, initSt_frozen_vel_indep m φ masked vel j hjfz, ?_⟩
    refine Relation.ReflTransGen.single ?_
    exact ⟨nbrList_symm m hsym i j hjmem,
      initSt_frozen_not_masked m φ masked vel j hjfz,
      initSt_none_not_masked m φ masked vel i hn⟩
  · have hinit : (initSt m φ masked vel).status i = FROZEN := by
      by_cases hc : (initSt m φ masked vel).status i = NONE ∧
          hasFrozenNbr m (initSt m φ masked vel) i
      · exfalso
        have h2 : (trialSt m φ masked vel).status i = TRIAL := by
          show (if _ then TRIAL else _) = TRIAL
          rw [if_pos hc]
        rw [hi] at h2
        cases h2
      · have h2 : (trialSt m φ masked vel).status i = (initSt m φ masked vel).status i := by
          show (if _ then TRIAL else _) = _
          rw [if_neg hc]
        rw [hi] at h2
        exact h2.symm
    exact ⟨i, initSt_frozen_vel_indep m φ masked vel i hinit, Relation.ReflTransGen.refl⟩

theorem solveStep_status_char (m : Mesh) (isVel : Bool) (s : St) (dx : ℝ) (s' : St)
    (h : solveStep m isVel s = some (dx, s')) :
    ∃ x q', popMin s.d s.q = some (x, q') ∧
      ∀ i, s'.status i =
        if i ∈ nbrList m x ∧ Function.update s.status x FROZEN i = NONE then TRIAL
        else Function.update s.status x FROZEN i := by
  obtain ⟨x, q', hpop, hdx, hs'⟩ := solveStep_some m isVel s dx s' h
  refine ⟨x, q', hpop, fun i => ?_⟩
  rw [hs', foldl_updateNeighbour_status, ite_vel_status]

theorem solveStep_MaskInv (masked : ℕ → Bool) (m : Mesh) (isVel : Bool) (s : St)
    (dx : ℝ) (s' : St) (h : solveStep m isVel s = some (dx, s')) (hQ : QInv s)
    (hM : MaskInv masked s) : MaskInv masked s' := by
  obtain ⟨x, q', hpop, hchar⟩ := solveStep_status_char m isVel s dx s' h
  have hxq : x ∈ s.q :=
    ((popMin_perm s.d s.q x q' hpop).mem_iff).mpr (List.mem_cons_self x q')
  have hxt : s.status x = TRIAL := (hQ.1 x).mp hxq
  intro i
  rw [hchar i]
  by_cases hc : i ∈ nbrList m x ∧ Function.update s.status x FROZEN i = NONE
  · rw [if_pos hc]
    constructor
    · intro hT
      cases hT
    · intro hmask
      exfalso
      have hupd := hc.2
      by_cases hix : i = x
      · rw [hix] at hupd
        simp [Function.update_apply] at hupd
      · rw [Function.update_apply, if_neg hix] at hupd
        rw [(hM i).mpr hmask] at hupd
        cases hupd
  · rw [if_neg hc, Function.update_apply]
    by_cases hix : i = x
    · rw [if_pos hix]
      constructor
      · intro hF
        cases hF
      · intro hmask
        exfalso
        have h2 := (hM i).mpr hmask
        rw [hix, hxt] at h2
        cases h2
    · rw [if_neg hix]
      exact hM i

theorem solveStep_ReachInv (m : Mesh) (isVel : Bool) (φ : ℕ → ℝ) (masked : ℕ → Bool)
    (s : St) (dx : ℝ) (s' : St) (h : solveStep m isVel s = some (dx, s')) (hQ : QInv s)
    (hM : MaskInv masked s) (hR : ReachInv m φ masked s) : ReachInv m φ masked s' := by
  obtain ⟨x, q', hpop, hchar⟩ := solveStep_status_char m isVel s dx s' h
  have hxq : x ∈ s.q :=
    ((popMin_perm s.d s.q x q' hpop).mem_iff).mpr (List.mem_cons_self x q')
  have hxt : s.status x = TRIAL := (hQ.1 x).mp hxq
  have hxreach : Reach m φ masked x := hR x (Or.inl hxt)
  have hxmask : masked x = false := by
    cases hmx : masked x
    · rfl
    · have h2 := (hM x).mpr hmx
      rw [hxt] at h2
      cases h2
  intro i hi
  rw [hchar i] at hi
  by_cases hc : i ∈ nbrList m x ∧ Function.update s.status x FROZEN i = NONE
  · have hix : i ≠ x := by
      intro he
      have h2 := hc.2
      rw [he] at h2
      simp [Function.update_apply] at h2
    have hsi : s.status i = NONE := by
      have h2 := hc.2
      rw [Function.update_apply, if_neg hix] at h2
      exact h2
    have himask : masked i = false := by
      cases hmi : masked i
      · rfl
      · have h2 := (hM i).mpr hmi
        rw [hsi] at h2
        cases h2
    obtain ⟨b, hb, hpath⟩ := hxreach
    exact ⟨b, hb, hpath.tail ⟨hc.1, hxmask, himask⟩⟩
  · rw [if_neg hc] at hi
    by_cases hix : i = x
    · exact hix ▸ hxreach
    · have hupd : Function.update s.status x FROZEN i = s.status i := by
        rw [Function.update_apply, if_neg hix]
      rw [hupd] at hi
      exact hR i hi

theorem stepN_ReachMask (m : Mesh) (isVel : Bool) (φ : ℕ → ℝ) (masked : ℕ → Bool) :
    ∀ (k : ℕ) (s : St), QInv s → MaskInv masked s → ReachInv m φ masked s →
      QInv (stepN m isVel k s) ∧ MaskInv masked (stepN m isVel k s) ∧
        ReachInv m φ masked (stepN m isVel k s) := by
  intro k
  induction k with
  | zero => intro s h1 h2 h3; exact ⟨h1, h2, h3⟩
  | succ k ih =>
    intro s h1 h2 h3
    unfold stepN
    cases h : solveStep m isVel s with
    | none => exact ⟨h1, h2, h3⟩
    | some r =>
      exact ih r.2 (solveStep_QInv m isVel s r.1 r.2 (by rw [h]) h1)
        (solveStep_MaskInv masked m isVel s r.1 r.2 (by rw [h]) h1 h2)
        (solveStep_ReachInv m isVel φ masked s r.1 r.2 (by rw [h]) h1 h2 h3)

/-- C8: a non-masked node with no path of non-masked neighbours back to a
node frozen by the initialiser still has status NONE after the run, and its
distance value is its pre-solve value; the march returns it unchanged. -/
theorem unreachable_nodes_remain_none (m : Mesh) (isVel : Bool) (φ : ℕ → ℝ)
    (masked : ℕ → Bool) (vel : ℕ → ℝ) (hwf : m.WF) (hsym : m.Symm) (i : ℕ)
    (hmask : masked i = false) (hnr : ¬ Reach m φ masked i) :
    (runState m isVel φ masked vel).status i = NONE ∧
    (runState m isVel φ masked vel).d i = φ i ∧
    march m φ masked i = φ i := by
  have hgen : ∀ (b : Bool) (w : ℕ → ℝ),
      (runState m b φ masked w).status i = NONE ∧ (runState m b φ masked w).d i = φ i := by
    intro b w
    rw [runState_eq_stepN]
    obtain ⟨hQ, hM, hR⟩ := stepN_ReachMask m b φ masked m.nNodes (trialSt m φ masked w)
      (trialSt_QInv m φ masked w hwf) (trialSt_MaskInv m φ masked w)
      (trialSt_ReachInv m φ masked w hsym)
    have hstN : (stepN m b m.nNodes (trialSt m φ masked w)).status i = NONE := by
      cases hfs : (stepN m b m.nNodes (trialSt m φ masked w)).status i with
      | NONE => rfl
      | TRIAL => exact absurd (hR i (Or.inl hfs)) hnr
      | FROZEN => exact absurd (hR i (Or.inr hfs)) hnr
      | MASKED =>
        have h2 := (hM i).mp hfs
        rw [hmask] at h2
        cases h2
    obtain ⟨htr, hd, _⟩ := stepN_none_rev m b m.nNodes (trialSt m φ masked w) i hstN
    obtain ⟨hinit, htd⟩ := trialSt_status_none m φ masked w i htr
    exact ⟨hstN, by rw [hd, htd]⟩
  refine ⟨(hgen isVel vel).1, (hgen isVel vel).2, ?_⟩
  show (if (runState m false φ masked fun _ => 0).status i = FROZEN
      then (if φ i < 0 then -(runState m false φ masked fun _ => 0).d i
        else (runState m false φ masked fun _ => 0).d i)
      else (runState m false φ masked fun _ => 0).d i) = φ i
  rw [if_neg (by rw [(hgen false fun _ => 0).1]; intro hx; cases hx)]
  exact (hgen false fun _ => 0).2

/-- Witness for C8: a two-node mesh with an all-positive input field has no
interface, so node 0 is unreachable and the march leaves it at its input
value. -/
theorem unreachable_nodes_remain_none_witness :
    (lineMesh 2 1).WF ∧ (lineMesh 2 1).Symm ∧ noMask 0 = false ∧
    ¬ Reach (lineMesh 2 1) (fun _ => (1:ℝ)) noMask 0 ∧
    march (lineMesh 2 1) (fun _ => (1:ℝ)) noMask 0 = 1 := by
  have hedge : ∀ (b : ℕ) (a s : Bool),
      edgeContribution (lineMesh 2 1) (fun _ => (1:ℝ)) b a s = Option.none := by
    intro b a s
    unfold edgeContribution
    cases hn : (lineMesh 2 1).neighbour b a s with
    | none => rfl
    | some j =>
      show (if (1:ℝ) * 1 < 0
        then some ((lineMesh 2 1).h * |(1:ℝ)| / |(1:ℝ) - 1|) else Option.none) = Option.none
      rw [if_neg (by norm_num)]
  have hbd : ∀ b, boundaryDist (lineMesh 2 1) (fun _ => (1:ℝ)) b = Option.none := by
    intro b
    have hax : ∀ a, axisBoundaryDist (lineMesh 2 1) (fun _ => (1:ℝ)) b a = Option.none := by
      intro a
      unfold axisBoundaryDist
      rw [hedge b a false, hedge b a true]
    unfold boundaryDist
    rw [hax false, hax true]
  have hnr : ¬ Reach (lineMesh 2 1) (fun _ => (1:ℝ)) noMask 0 := by
    rintro ⟨b, hb, _⟩
    have h2 : (initSt (lineMesh 2 1) (fun _ => (1:ℝ)) noMask fun _ => 0).status b = NONE := by
      have hform : (initSt (lineMesh 2 1) (fun _ => (1:ℝ)) noMask fun _ => 0).status b =
          (if noMask b then MASKED
           else match boundaryDist (lineMesh 2 1) (fun _ => (1:ℝ)) b with
             | some _ => FROZEN
             | Option.none => NONE) := rfl
      rw [hform, hbd b]
      simp [noMask]
    rw [hb] at h2
    cases h2
  exact ⟨lineMesh_WF 2 1, lineMesh_Symm 2 1, rfl, hnr,
    (unreachable_nodes_remain_none (lineMesh 2 1) false (fun _ => (1:ℝ)) noMask
      (fun _ => 0) (lineMesh_WF 2 1) (lineMesh_Symm 2 1) 0 rfl hnr).2.2⟩

theorem updateNode_cons (m : Mesh) (s : St) (i : ℕ) (u : ℝ) (rest : List ℝ)
    (hus : contributors m s i = u :: rest) :
    updateNode m s i =
      solveQuadratic (((u :: rest).length : ℝ) / m.h ^ 2)
        (2 * (u :: rest).sum / m.h ^ 2)
        (((u :: rest).map (· ^ 2)).sum / m.h ^ 2 - 1)
        (rest.foldr min u + m.h) := by
  unfold updateNode
  rw [hus]

theorem sum_sub_sq (r : ℝ) (us : List ℝ) :
    (us.map (fun u => (r - u) ^ 2)).sum =
      us.length * r ^ 2 - 2 * us.sum * r + (us.map (· ^ 2)).sum := by
  induction us with
  | nil => simp
  | cons a t ih =>
    simp only [List.map_cons, List.sum_cons, List.length_cons, ih]
    push_cast
    ring

theorem solveQuadratic_val (a b c f : ℝ) (ha : a ≠ 0) (hd : 0 ≤ b ^ 2 - 4 * a * c) :
    solveQuadratic a b c f = (b + Real.sqrt (b ^ 2 - 4 * a * c)) / (2 * a) := by
  unfold solveQuadratic
  rw [if_neg ha, if_neg (not_lt.mpr hd)]

theorem solveQuadratic_fallback (a b c f : ℝ) (hd : b ^ 2 - 4 * a * c < 0) :
    solveQuadratic a b c f = f := by
  unfold solveQuadratic
  by_cases ha : a = 0
  · rw [if_pos ha]
  · rw [if_neg ha, if_pos hd]

theorem quadRoot_spec (a b c f : ℝ) (ha : 0 < a) (hd : 0 ≤ b ^ 2 - 4 * a * c) :
    a * solveQuadratic a b c f ^ 2 - b * solveQuadratic a b c f + c = 0 ∧
    ∀ r, a * r ^ 2 - b * r + c = 0 → r ≤ solveQuadratic a b c f := by
  have hane : a ≠ 0 := ne_of_gt ha
  rw [solveQuadratic_val a b c f hane hd]
  have hs : Real.sqrt (b ^ 2 - 4 * a * c) ^ 2 = b ^ 2 - 4 * a * c := Real.sq_sqrt hd
  have hsn : 0 ≤ Real.sqrt (b ^ 2 - 4 * a * c) := Real.sqrt_nonneg _
  set sq := Real.sqrt (b ^ 2 - 4 * a * c) with hsqdef
  constructor
  · field_simp
    ring_nf
    nlinarith [hs]
  · intro r hr
    have h1 : (2 * a * r - b) ^ 2 = sq ^ 2 := by nlinarith [hr, hs]
    have h2 : 2 * a * r - b ≤ sq := by nlinarith [h1, hsn]
    rw [le_div_iff₀ (by linarith : (0:ℝ) < 2 * a)]
    linarith

theorem contributors_cases (m : Mesh) (s : St) (i : ℕ) :
    contributors m s i = [] ∨ (∃ u, contributors m s i = [u]) ∨
      ∃ u w, contributors m s i = [u, w] := by
  unfold contributors
  cases upwind m s i false <;> cases upwind m s i true <;> simp

theorem frozenVal_some (s : St) (o : Option ℕ) (v : ℝ) (h : frozenVal s o = some v) :
    ∃ j, o = some j ∧ s.status j = FROZEN ∧ v = s.d j := by
  cases o with
  | none => cases h
  | some j =>
    by_cases hf : s.status j = FROZEN
    · refine ⟨j, rfl, hf, ?_⟩
      have h2 : frozenVal s (some j) = some (s.d j) := by
        show (if s.status j = FROZEN then some (s.d j) else Option.none) = some (s.d j)
        rw [if_pos hf]
      rw [h2] at h
      cases h
      rfl
    · have h2 : frozenVal s (some j) = Option.none := by
        show (if s.status j = FROZEN then some (s.d j) else Option.none) = Option.none
        rw [if_neg hf]
      rw [h2] at h
      cases h

theorem contributor_is_frozen_val (m : Mesh) (s : St) (y : ℕ) (u : ℝ)
    (hu : u ∈ contributors m s y) :
    ∃ j ∈ nbrList m y, s.status j = FROZEN ∧ u = s.d j := by
  have hax : ∃ a : Bool, upwind m s y a = some u := by
    unfold contributors at hu
    rcases List.mem_filterMap.mp hu with ⟨o, ho, hid⟩
    cases o with
    | none => cases hid
    | some w =>
      cases hid
      rcases List.mem_cons.mp ho with h | h
      · exact ⟨false, h.symm⟩
      · rcases List.mem_cons.mp h with h' | h'
        · exact ⟨true, h'.symm⟩
        · cases h'
  obtain ⟨a, ha⟩ := hax
  have hslot : ∀ (sd : Bool) (j : ℕ), m.neighbour y a sd = some j →
      j ∈ nbrList m y := by
    intro sd j hj
    refine List.mem_filterMap.mpr ⟨(a, sd), ?_, hj⟩
    unfold slots
    cases a <;> cases sd <;> simp
  unfold upwind at ha
  cases hf : frozenVal s (m.neighbour y a false) with
  | none =>
    cases ht : frozenVal s (m.neighbour y a true) with
    | none =>
      rw [hf, ht] at ha
      cases ha
    | some w =>
      rw [hf, ht] at ha
      cases ha
      obtain ⟨j, hj, hfz, hval⟩ := frozenVal_some s _ _ ht
      exact ⟨j, hslot true j hj, hfz, hval⟩
  | some v =>
    cases ht : frozenVal s (m.neighbour y a true) with
    | none =>
      rw [hf, ht] at ha
      cases ha
      obtain ⟨j, hj, hfz, hval⟩ := frozenVal_some s _ _ hf
      exact ⟨j, hslot false j hj, hfz, hval⟩
    | some w =>
      rw [hf, ht] at ha
      cases ha
      obtain ⟨j, hj, hfzj, hvj⟩ := frozenVal_some s _ _ hf
      obtain ⟨j', hj', hfzj', hvj'⟩ := frozenVal_some s _ _ ht
      rcases min_cases v w with ⟨hmin, _⟩ | ⟨hmin, _⟩
      · exact ⟨j, hslot false j hj, hfzj, by rw [hmin, hvj]⟩
      · exact ⟨j', hslot true j' hj', hfzj', by rw [hmin, hvj']⟩

theorem solveQuadratic_one (h u f : ℝ) (hh : 0 < h) :
    solveQuadratic (1 / h ^ 2) (2 * u / h ^ 2) (u ^ 2 / h ^ 2 - 1) f = u + h := by
  have h2 : (0:ℝ) < h ^ 2 := by positivity
  have hd : (2 * u / h ^ 2) ^ 2 - 4 * (1 / h ^ 2) * (u ^ 2 / h ^ 2 - 1) = 4 / h ^ 2 := by
    field_simp
    ring
  rw [solveQuadratic_val _ _ _ _ (by positivity) (by rw [hd]; positivity)]
  rw [hd]
  have hsq : Real.sqrt (4 / h ^ 2) = 2 / h := by
    rw [show (4 : ℝ) / h ^ 2 = (2 / h) ^ 2 by rw [div_pow]; norm_num]
    exact Real.sqrt_sq (by positivity)
  rw [hsq]
  field_simp
  ring

theorem solveQuadratic_two_ge (h u w dx f : ℝ) (hh : 0 < h)
    (hdx : dx = u ∨ dx = w) (hu : dx - h ≤ u) (hw : dx - h ≤ w) (hf : dx ≤ f) :
    dx ≤ solveQuadratic (2 / h ^ 2) (2 * (u + w) / h ^ 2)
      ((u ^ 2 + w ^ 2) / h ^ 2 - 1) f := by
  have h2 : (0:ℝ) < h ^ 2 := by positivity
  have h4 : (0:ℝ) < h ^ 4 := by positivity
  by_cases hd : (2 * (u + w) / h ^ 2) ^ 2 -
      4 * (2 / h ^ 2) * ((u ^ 2 + w ^ 2) / h ^ 2 - 1) < 0
  · rw [solveQuadratic_fallback _ _ _ _ hd]
    exact hf
  · push_neg at hd
    have hrhs : (2 * (u + w) / h ^ 2) ^ 2 -
        4 * (2 / h ^ 2) * ((u ^ 2 + w ^ 2) / h ^ 2 - 1) =
        (8 * h ^ 2 - 4 * (u - w) ^ 2) / h ^ 4 := by
      field_simp
      ring
    rw [solveQuadratic_val _ _ _ _ (by positivity) hd]
    rw [le_div_iff₀ (by positivity : (0:ℝ) < 2 * (2 / h ^ 2))]
    have hsqn : 0 ≤ Real.sqrt ((2 * (u + w) / h ^ 2) ^ 2 -
        4 * (2 / h ^ 2) * ((u ^ 2 + w ^ 2) / h ^ 2 - 1)) := Real.sqrt_nonneg _
    by_cases ht : dx * (2 * (2 / h ^ 2)) - 2 * (u + w) / h ^ 2 ≤ 0
    · linarith
    · push_neg at ht
      have hdineq : dx * (2 * (2 / h ^ 2)) - 2 * (u + w) / h ^ 2 =
          2 * (2 * dx - u - w) / h ^ 2 := by
        field_simp
        ring
      have htpos : 0 < 2 * dx - u - w := by
        rw [hdineq] at ht
        rw [lt_div_iff₀ h2] at ht
        linarith
      have hkey : (dx * (2 * (2 / h ^ 2)) - 2 * (u + w) / h ^ 2) ^ 2 ≤
          (2 * (u + w) / h ^ 2) ^ 2 -
            4 * (2 / h ^ 2) * ((u ^ 2 + w ^ 2) / h ^ 2 - 1) := by
        rw [hdineq, hrhs, div_pow, show (h ^ 2) ^ 2 = h ^ 4 by ring,
          div_le_div_iff_of_pos_right h4]
        rcases hdx with rfl | rfl
        · nlinarith [hw, htpos]
        · nlinarith [hu, htpos]
      have hle := Real.le_sqrt_of_sq_le hkey
      linarith

theorem solveQuadratic_two_le (h u w f : ℝ) (hh : 0 < h) (hf : f ≤ min u w + h) :
    solveQuadratic (2 / h ^ 2) (2 * (u + w) / h ^ 2)
      ((u ^ 2 + w ^ 2) / h ^ 2 - 1) f ≤ min u w + h := by
  have h2 : (0:ℝ) < h ^ 2 := by positivity
  have h4 : (0:ℝ) < h ^ 4 := by positivity
  by_cases hd : (2 * (u + w) / h ^ 2) ^ 2 -
      4 * (2 / h ^ 2) * ((u ^ 2 + w ^ 2) / h ^ 2 - 1) < 0
  · rw [solveQuadratic_fallback _ _ _ _ hd]
    exact hf
  · push_neg at hd
    have hrhs : (2 * (u + w) / h ^ 2) ^ 2 -
        4 * (2 / h ^ 2) * ((u ^ 2 + w ^ 2) / h ^ 2 - 1) =
        (8 * h ^ 2 - 4 * (u - w) ^ 2) / h ^ 4 := by
      field_simp
      ring
    have hdelta : (u - w) ^ 2 ≤ 2 * h ^ 2 := by
      have h0 : 0 ≤ (8 * h ^ 2 - 4 * (u - w) ^ 2) / h ^ 4 := by
        rw [← hrhs]
        exact hd
      rw [le_div_iff₀ h4] at h0
      nlinarith [h0]
    rw [solveQuadratic_val _ _ _ _ (by positivity) hd]
    rw [div_le_iff₀ (by positivity : (0:ℝ) < 2 * (2 / h ^ 2))]
    rcases le_total u w with hle | hle
    · rw [min_eq_left hle]
      have hT : (u + h) * (2 * (2 / h ^ 2)) - 2 * (u + w) / h ^ 2 =
          2 * (u - w + 2 * h) / h ^ 2 := by
        field_simp
        ring
      have hTpos : 0 ≤ 2 * (u - w + 2 * h) / h ^ 2 := by
        have hnum : 0 ≤ u - w + 2 * h := by nlinarith [hdelta, hh, sq_nonneg h]
        positivity
      have hsqle : (2 * (u + w) / h ^ 2) ^ 2 -
          4 * (2 / h ^ 2) * ((u ^ 2 + w ^ 2) / h ^ 2 - 1) ≤
          (2 * (u - w + 2 * h) / h ^ 2) ^ 2 := by
        rw [hrhs, div_pow, show (h ^ 2) ^ 2 = h ^ 4 by ring, div_le_div_iff_of_pos_right h4]
        nlinarith [sq_nonneg (u - w + h)]
      have hsle : Real.sqrt ((2 * (u + w) / h ^ 2) ^ 2 -
          4 * (2 / h ^ 2) * ((u ^ 2 + w ^ 2) / h ^ 2 - 1)) ≤
          2 * (u - w + 2 * h) / h ^ 2 :=
        le_trans (Real.sqrt_le_sqrt hsqle) (le_of_eq (Real.sqrt_sq hTpos))
      linarith
    · rw [min_eq_right hle]
      have hT : (w + h) * (2 * (2 / h ^ 2)) - 2 * (u + w) / h ^ 2 =
          2 * (w - u + 2 * h) / h ^ 2 := by
        field_simp
        ring
      have hTpos : 0 ≤ 2 * (w - u + 2 * h) / h ^ 2 := by
        have hnum : 0 ≤ w - u + 2 * h := by nlinarith [hdelta, hh, sq_nonneg h]
        positivity
      have hsqle : (2 * (u + w) / h ^ 2) ^ 2 -
          4 * (2 / h ^ 2) * ((u ^ 2 + w ^ 2) / h ^ 2 - 1) ≤
          (2 * (w - u + 2 * h) / h ^ 2) ^ 2 := by
        rw [hrhs, div_pow, show (h ^ 2) ^ 2 = h ^ 4 by ring, div_le_div_iff_of_pos_right h4]
        nlinarith [sq_nonneg (w - u + h)]
      have hsle : Real.sqrt ((2 * (u + w) / h ^ 2) ^ 2 -
          4 * (2 / h ^ 2) * ((u ^ 2 + w ^ 2) / h ^ 2 - 1)) ≤
          2 * (w - u + 2 * h) / h ^ 2 :=
        le_trans (Real.sqrt_le_sqrt hsqle) (le_of_eq (Real.sqrt_sq hTpos))
      linarith

theorem solveQuadratic_two_pos (h u w f : ℝ) (hh : 0 < h) (hu : 0 < u) (hw : 0 < w)
    (hf : 0 < f) :
    0 < solveQuadratic (2 / h ^ 2) (2 * (u + w) / h ^ 2)
      ((u ^ 2 + w ^ 2) / h ^ 2 - 1) f := by
  have h2 : (0:ℝ) < h ^ 2 := by positivity
  by_cases hd : (2 * (u + w) / h ^ 2) ^ 2 -
      4 * (2 / h ^ 2) * ((u ^ 2 + w ^ 2) / h ^ 2 - 1) < 0
  · rw [solveQuadratic_fallback _ _ _ _ hd]
    exact hf
  · push_neg at hd
    rw [solveQuadratic_val _ _ _ _ (by positivity) hd]
    have hb : 0 < 2 * (u + w) / h ^ 2 := by positivity
    have hsqn : 0 ≤ Real.sqrt ((2 * (u + w) / h ^ 2) ^ 2 -
        4 * (2 / h ^ 2) * ((u ^ 2 + w ^ 2) / h ^ 2 - 1)) := Real.sqrt_nonneg _
    positivity

theorem updateNode_one_eq (m : Mesh) (s : St) (i : ℕ) (u : ℝ) (hh : 0 < m.h)
    (hus : contributors m s i = [u]) : updateNode m s i = u + m.h := by
  rw [updateNode_cons m s i u [] hus]
  have e : solveQuadratic ((([u] : List ℝ).length : ℝ) / m.h ^ 2)
      (2 * ([u] : List ℝ).sum / m.h ^ 2)
      ((([u] : List ℝ).map (· ^ 2)).sum / m.h ^ 2 - 1)
      (([] : List ℝ).foldr min u + m.h) =
      solveQuadratic (1 / m.h ^ 2) (2 * u / m.h ^ 2) (u ^ 2 / m.h ^ 2 - 1) (u + m.h) := by
    congr 1 <;> simp
  rw [e, solveQuadratic_one m.h u (u + m.h) hh]

theorem updateNode_two_eq (m : Mesh) (s : St) (i : ℕ) (u w : ℝ)
    (hus : contributors m s i = [u, w]) :
    updateNode m s i = solveQuadratic (2 / m.h ^ 2) (2 * (u + w) / m.h ^ 2)
      ((u ^ 2 + w ^ 2) / m.h ^ 2 - 1) (min w u + m.h) := by
  rw [updateNode_cons m s i u [w] hus]
  congr 1 <;> simp

theorem updateNode_le_contributor (m : Mesh) (s : St) (i : ℕ) (hh : 0 < m.h) :
    ∀ u ∈ contributors m s i, updateNode m s i ≤ u + m.h := by
  intro u' hu'
  rcases contributors_cases m s i with hc | ⟨u, hc⟩ | ⟨u, w, hc⟩
  · rw [hc] at hu'
    cases hu'
  · rw [hc] at hu'
    have he : u' = u := by simpa using hu'
    subst he
    rw [updateNode_one_eq m s i u' hh hc]
  · rw [hc] at hu'
    have hmem : u' = u ∨ u' = w := by simpa using hu'
    rw [updateNode_two_eq m s i u w hc]
    have hfb : min w u + m.h ≤ min u w + m.h := by rw [min_comm]
    have hle := solveQuadratic_two_le m.h u w (min w u + m.h) hh hfb
    rcases hmem with rfl | rfl
    · have h1 := min_le_left u' w
      linarith
    · have h1 := min_le_right u u'
      linarith

theorem updateNode_ge (m : Mesh) (s : St) (i : ℕ) (dx : ℝ) (hh : 0 < m.h)
    (hmem : dx ∈ contributors m s i) (hlb : ∀ u ∈ contributors m s i, dx - m.h ≤ u) :
    dx ≤ updateNode m s i := by
  rcases contributors_cases m s i with hc | ⟨u, hc⟩ | ⟨u, w, hc⟩
  · rw [hc] at hmem
    cases hmem
  · rw [hc] at hmem
    have he : dx = u := by simpa using hmem
    rw [updateNode_one_eq m s i u hh hc, ← he]
    linarith
  · have hu := hlb u (by rw [hc]; simp)
    have hw := hlb w (by rw [hc]; simp)
    have hdx : dx = u ∨ dx = w := by rw [hc] at hmem; simpa using hmem
    rw [updateNode_two_eq m s i u w hc]
    refine solveQuadratic_two_ge m.h u w dx _ hh hdx hu hw ?_
    rcases le_total w u with hle | hle
    · rw [min_eq_left hle]
      linarith
    · rw [min_eq_right hle]
      linarith

theorem updateNode_pos (m : Mesh) (s : St) (i : ℕ) (hh : 0 < m.h)
    (hpos : ∀ u ∈ contributors m s i, 0 < u) : 0 < updateNode m s i := by
  rcases contributors_cases m s i with hc | ⟨u, hc⟩ | ⟨u, w, hc⟩
  · unfold updateNode
    rw [hc]
    unfold maxDouble
    norm_num
  · have hu := hpos u (by rw [hc]; simp)
    rw [updateNode_one_eq m s i u hh hc]
    linarith
  · have hu := hpos u (by rw [hc]; simp)
    have hw := hpos w (by rw [hc]; simp)
    rw [updateNode_two_eq m s i u w hc]
    refine solveQuadratic_two_pos m.h u w _ hh hu hw ?_
    rcases le_total w u with hle | hle
    · rw [min_eq_left hle]
      linarith
    · rw [min_eq_right hle]
      linarith

theorem updateNode_congr (m : Mesh) (s s' : St) (hfe : FrozenEq s s') (y : ℕ) :
    updateNode m s y = updateNode m s' y := by
  have hfv : ∀ o : Option ℕ, frozenVal s o = frozenVal s' o := by
    intro o
    cases o with
    | none => rfl
    | some j =>
      show (if s.status j = FROZEN then some (s.d j) else Option.none) =
        (if s'.status j = FROZEN then some (s'.d j) else Option.none)
      by_cases hf : s.status j = FROZEN
      · rw [if_pos hf, if_pos ((hfe j).1.mp hf), (hfe j).2 hf]
      · rw [if_neg hf, if_neg (fun hf' => hf ((hfe j).1.mpr hf'))]
  have hup : ∀ a, upwind m s y a = upwind m s' y a := by
    intro a
    unfold upwind
    rw [hfv, hfv]
  have hcon : contributors m s y = contributors m s' y := by
    unfold contributors
    rw [hup, hup]
  unfold updateNode
  rw [hcon]

theorem FrozenEq_refl (s : St) : FrozenEq s s := fun _ => ⟨Iff.rfl, fun _ => rfl⟩

theorem FrozenEq_symm (s s' : St) (h : FrozenEq s s') : FrozenEq s' s := by
  intro j
  refine ⟨(h j).1.symm, fun hf => ?_⟩
  exact ((h j).2 ((h j).1.mpr hf)).symm

theorem FrozenEq_updateNeighbour (m : Mesh) (s₀ s : St) (hfe : FrozenEq s₀ s) (y : ℕ) :
    FrozenEq s₀ (updateNeighbour m s y) := by
  intro j
  constructor
  · rw [updateNeighbour_status]
    by_cases hcond : j = y ∧ s.status y = NONE
    · rw [if_pos hcond]
      obtain ⟨hjy, hyn⟩ := hcond
      constructor
      · intro hf0
        have h2 := (hfe j).1.mp hf0
        rw [hjy, hyn] at h2
        cases h2
      · intro hT
        cases hT
    · rw [if_neg hcond]
      exact (hfe j).1
  · intro hf0
    have hfs := (hfe j).1.mp hf0
    by_cases hjy : j = y
    · subst hjy
      rw [updateNeighbour_frozen_masked m s j (Or.inl hfs)]
      exact (hfe j).2 hf0
    · rw [updateNeighbour_d_ne m s y j hjy]
      exact (hfe j).2 hf0

theorem foldl_FrozenEq (m : Mesh) (s₀ : St) :
    ∀ (l : List ℕ) (s : St), FrozenEq s₀ s →
      FrozenEq s₀ (l.foldl (updateNeighbour m) s) := by
  intro l
  induction l with
  | nil => intro s h; exact h
  | cons a t ih =>
    intro s h
    exact ih _ (FrozenEq_updateNeighbour m s₀ s h a)

theorem updateNeighbour_d_trial_le (m : Mesh) (s : St) (y : ℕ)
    (h : s.status y = TRIAL) :
    (updateNeighbour m s y).d y ≤ updateNode m s y := by
  unfold updateNeighbour
  split
  · dsimp only
    split
    · rename_i hlt
      simp [Function.update_apply]
    · rename_i hnlt
      push_neg at hnlt
      exact hnlt
  · rename_i heq
    rw [heq] at h
    cases h
  · rename_i h1 h2
    exact absurd h h1

theorem foldl_d_dichotomy (m : Mesh) (s₀ : St) :
    ∀ (l : List ℕ) (s : St), FrozenEq s₀ s → ∀ y,
      (l.foldl (updateNeighbour m) s).d y = s.d y ∨
      (l.foldl (updateNeighbour m) s).d y = updateNode m s₀ y := by
  intro l
  induction l with
  | nil =>
    intro s _ y
    exact Or.inl rfl
  | cons a t ih =>
    intro s hfe y
    rw [List.foldl_cons]
    have hfe' := FrozenEq_updateNeighbour m s₀ s hfe a
    rcases ih _ hfe' y with h | h
    · by_cases hya : y = a
      · subst hya
        cases hst : s.status y with
        | TRIAL =>
          rcases updateNeighbour_d_trial m s y hst with h2 | ⟨h2, _⟩
          · exact Or.inl (by rw [h, h2])
          · right
            rw [h, h2]
            exact updateNode_congr m s s₀ (FrozenEq_symm s₀ s hfe) y
        | NONE =>
          right
          rw [h, updateNeighbour_d_none m s y hst]
          exact updateNode_congr m s s₀ (FrozenEq_symm s₀ s hfe) y
        | FROZEN =>
          left
          rw [h, updateNeighbour_frozen_masked m s y (Or.inl hst)]
        | MASKED =>
          left
          rw [h, updateNeighbour_frozen_masked m s y (Or.inr hst)]
      · left
        rw [h, updateNeighbour_d_ne m s a y hya]
    · exact Or.inr h

theorem foldl_d_le (m : Mesh) (s₀ : St) :
    ∀ (l : List ℕ) (s : St), FrozenEq s₀ s → ∀ y, y ∈ l →
      (s.status y = TRIAL ∨ s.status y = NONE) →
      (l.foldl (updateNeighbour m) s).d y ≤ updateNode m s₀ y := by
  intro l
  induction l with
  | nil =>
    intro s _ y hy
    cases hy
  | cons a t ih =>
    intro s hfe y hy hst
    rw [List.foldl_cons]
    have hfe' := FrozenEq_updateNeighbour m s₀ s hfe a
    by_cases hya : y = a
    · subst hya
      have hc : updateNode m s y = updateNode m s₀ y :=
        updateNode_congr m s s₀ (FrozenEq_symm s₀ s hfe) y
      have hafter_d : (updateNeighbour m s y).d y ≤ updateNode m s₀ y := by
        rcases hst with hT | hN
        · rw [← hc]
          exact updateNeighbour_d_trial_le m s y hT
        · rw [updateNeighbour_d_none m s y hN, hc]
      have hafter_st : (updateNeighbour m s y).status y = TRIAL := by
        rw [updateNeighbour_status]
        by_cases hN : s.status y = NONE
        · rw [if_pos ⟨rfl, hN⟩]
        · rw [if_neg (fun hcond => hN hcond.2)]
          rcases hst with hT | hN'
          · exact hT
          · exact absurd hN' hN
      by_cases hyt : y ∈ t
      · exact ih _ hfe' y hyt (Or.inl hafter_st)
      · rw [foldl_updateNeighbour_d_not_mem m t _ y hyt]
        exact hafter_d
    · have hyt : y ∈ t := by
        rcases List.mem_cons.mp hy with h | h
        · exact absurd h hya
        · exact h
      have hst' : (updateNeighbour m s a).status y = TRIAL ∨
          (updateNeighbour m s a).status y = NONE := by
        rw [updateNeighbour_status, if_neg (fun hcond => hya hcond.1)]
        exact hst
      exact ih _ hfe' y hyt hst'

theorem foldl_d_none_eq (m : Mesh) (s₀ : St) :
    ∀ (l : List ℕ) (s : St), FrozenEq s₀ s → ∀ y, s.status y = NONE → y ∈ l →
      (l.foldl (updateNeighbour m) s).d y = updateNode m s₀ y := by
  intro l
  induction l with
  | nil =>
    intro s _ y _ hy
    cases hy
  | cons a t ih =>
    intro s hfe y hN hy
    rw [List.foldl_cons]
    have hfe' := FrozenEq_updateNeighbour m s₀ s hfe a
    by_cases hya : y = a
    · subst hya
      have hc : updateNode m s y = updateNode m s₀ y :=
        updateNode_congr m s s₀ (FrozenEq_symm s₀ s hfe) y
      have hd : (updateNeighbour m s y).d y = updateNode m s₀ y := by
        rw [updateNeighbour_d_none m s y hN, hc]
      rcases foldl_d_dichotomy m s₀ t _ hfe' y with h | h
      · rw [h, hd]
      · rw [h]
    · have hyt : y ∈ t := by
        rcases List.mem_cons.mp hy with h | h
        · exact absurd h hya
        · exact h
      have hN' : (updateNeighbour m s a).status y = NONE := by
        rw [updateNeighbour_status, if_neg (fun hcond => hya hcond.1)]
        exact hN
      exact ih _ hfe' y hN' hyt

theorem edgeContribution_pos (m : Mesh) (φ : ℕ → ℝ) (i : ℕ) (a sd : Bool) (w : ℝ)
    (hh : 0 < m.h) (h : edgeContribution m φ i a sd = some w) : 0 < w := by
  unfold edgeContribution at h
  cases hn : m.neighbour i a sd with
  | none =>
    rw [hn] at h
    cases h
  | some j =>
    rw [hn] at h
    have h' : (if φ i * φ j < 0 then some (m.h * |φ i| / |φ i - φ j|)
        else Option.none) = some w := h
    by_cases hcross : φ i * φ j < 0
    · rw [if_pos hcross] at h'
      cases h'
      have hφi : φ i ≠ 0 := by
        intro h0
        rw [h0] at hcross
        simp at hcross
      have hne : φ i - φ j ≠ 0 := by
        intro h0
        have he : φ i = φ j := by linarith
        rw [he] at hcross
        nlinarith [mul_self_nonneg (φ j)]
      have h1 : 0 < |φ i| := abs_pos.mpr hφi
      have h2 : 0 < |φ i - φ j| := abs_pos.mpr hne
      positivity
    · rw [if_neg hcross] at h'
      cases h'

theorem axisBoundaryDist_pos (m : Mesh) (φ : ℕ → ℝ) (i : ℕ) (a : Bool) (w : ℝ)
    (hh : 0 < m.h) (h : axisBoundaryDist m φ i a = some w) : 0 < w := by
  unfold axisBoundaryDist at h
  cases h0 : edgeContribution m φ i a false with
  | none =>
    cases h1 : edgeContribution m φ i a true with
    | none =>
      rw [h0, h1] at h
      cases h
    | some v =>
      rw [h0, h1] at h
      cases h
      exact edgeContribution_pos m φ i a true _ hh h1
  | some v0 =>
    cases h1 : edgeContribution m φ i a true with
    | none =>
      rw [h0, h1] at h
      cases h
      exact edgeContribution_pos m φ i a false _ hh h0
    | some v1 =>
      rw [h0, h1] at h
      cases h
      exact lt_min (edgeContribution_pos m φ i a false _ hh h0)
        (edgeContribution_pos m φ i a true _ hh h1)

theorem boundaryDist_pos (m : Mesh) (φ : ℕ → ℝ) (i : ℕ) (w : ℝ)
    (hh : 0 < m.h) (h : boundaryDist m φ i = some w) : 0 < w := by
  unfold boundaryDist at h
  cases h0 : axisBoundaryDist m φ i false with
  | none =>
    cases h1 : axisBoundaryDist m φ i true with
    | none =>
      rw [h0, h1] at h
      cases h
    | some dy =>
      rw [h0, h1] at h
      cases h
      exact axisBoundaryDist_pos m φ i true _ hh h1
  | some dx =>
    cases h1 : axisBoundaryDist m φ i true with
    | none =>
      rw [h0, h1] at h
      cases h
      exact axisBoundaryDist_pos m φ i false _ hh h0
    | some dy =>
      rw [h0, h1] at h
      cases h
      have hx := axisBoundaryDist_pos m φ i false _ hh h0
      have hy := axisBoundaryDist_pos m φ i true _ hh h1
      have hs : 0 < Real.sqrt (dx ^ 2 + dy ^ 2) := Real.sqrt_pos.mpr (by positivity)
      positivity

theorem initSt_PInv (m : Mesh) (φ : ℕ → ℝ) (masked : ℕ → Bool) (vel : ℕ → ℝ)
    (hh : 0 < m.h) : PInv (initSt m φ masked vel) := by
  intro i hi
  rcases hi with hT | hF
  · exact absurd hT (initSt_status_ne_trial m φ masked vel i)
  · have hform_s : (initSt m φ masked vel).status i =
        (if masked i then MASKED
         else match boundaryDist m φ i with
           | some _ => FROZEN
           | Option.none => NONE) := rfl
    have hform_d : (initSt m φ masked vel).d i =
        (if masked i then φ i
         else match boundaryDist m φ i with
           | some dist => dist
           | Option.none => φ i) := rfl
    rw [hform_s] at hF
    rw [hform_d]
    by_cases hm : masked i = true
    · rw [if_pos hm] at hF
      cases hF
    · rw [if_neg hm] at hF
      rw [if_neg hm]
      cases hbd : boundaryDist m φ i with
      | none =>
        rw [hbd] at hF
        cases hF
      | some w =>
        exact boundaryDist_pos m φ i w hh hbd

theorem trialSt_PInv (m : Mesh) (φ : ℕ → ℝ) (masked : ℕ → Bool) (vel : ℕ → ℝ)
    (hh : 0 < m.h) : PInv (trialSt m φ masked vel) := by
  intro i hi
  by_cases hc : (initSt m φ masked vel).status i = NONE ∧
      hasFrozenNbr m (initSt m φ masked vel) i
  · have hd : (trialSt m φ masked vel).d i = updateNode m (initSt m φ masked vel) i := by
      show (if _ then updateNode m _ i else _) = _
      rw [if_pos hc]
    rw [hd]
    apply updateNode_pos _ _ _ hh
    intro u hu
    obtain ⟨j, _, hfz, hval⟩ := contributor_is_frozen_val m (initSt m φ masked vel) i u hu
    rw [hval]
    exact initSt_PInv m φ masked vel hh j (Or.inr hfz)
  · have hst : (trialSt m φ masked vel).status i = (initSt m φ masked vel).status i := by
      show (if _ then TRIAL else _) = _
      rw [if_neg hc]
    have hd : (trialSt m φ masked vel).d i = (initSt m φ masked vel).d i := by
      show (if _ then updateNode m _ i else _) = _
      rw [if_neg hc]
    rw [hd]
    rw [hst] at hi
    exact initSt_PInv m φ masked vel hh i hi

theorem foldl_PInv (m : Mesh) (l : List ℕ) (s : St) (hh : 0 < m.h) (hp : PInv s) :
    PInv (l.foldl (updateNeighbour m) s) := by
  intro y hy
  have hpos_contrib : ∀ u ∈ contributors m s y, 0 < u := by
    intro u hu
    obtain ⟨j, _, hfz, hval⟩ := contributor_is_frozen_val m s y u hu
    rw [hval]
    exact hp j (Or.inr hfz)
  have hstc := foldl_updateNeighbour_status m l s y
  rcases hy with hT | hF
  · rw [hT] at hstc
    by_cases hc : y ∈ l ∧ s.status y = NONE
    · rw [foldl_d_none_eq m s l s (FrozenEq_refl s) y hc.2 hc.1]
      exact updateNode_pos m s y hh hpos_contrib
    · rw [if_neg hc] at hstc
      rcases foldl_d_dichotomy m s l s (FrozenEq_refl s) y with h | h
      · rw [h]
        exact hp y (Or.inl hstc.symm)
      · rw [h]
        exact updateNode_pos m s y hh hpos_contrib
  · rw [hF] at hstc
    by_cases hc : y ∈ l ∧ s.status y = NONE
    · rw [if_pos hc] at hstc
      cases hstc
    · rw [if_neg hc] at hstc
      rw [foldl_updateNeighbour_d_frozen_masked m l s y (Or.inl hstc.symm)]
      exact hp y (Or.inr hstc.symm)

theorem solveStep_PInv (m : Mesh) (isVel : Bool) (s : St) (dx : ℝ) (s' : St)
    (h : solveStep m isVel s = some (dx, s')) (hh : 0 < m.h) (hQ : QInv s)
    (hp : PInv s) : PInv s' := by
  obtain ⟨x, q', hpop, hdx, hs'⟩ := solveStep_some m isVel s dx s' h
  have hxq : x ∈ s.q :=
    ((popMin_perm s.d s.q x q' hpop).mem_iff).mpr (List.mem_cons_self x q')
  have hxt : s.status x = TRIAL := (hQ.1 x).mp hxq
  have hpmid : PInv (if isVel then
      finaliseVelocity m { s with q := q', status := Function.update s.status x FROZEN } x
    else { s with q := q', status := Function.update s.status x FROZEN }) := by
    intro i hi
    have hdi : ((if isVel then
        finaliseVelocity m { s with q := q', status := Function.update s.status x FROZEN } x
      else { s with q := q', status := Function.update s.status x FROZEN })).d i = s.d i := by
      rw [ite_vel_d]
    have hsi : ((if isVel then
        finaliseVelocity m { s with q := q', status := Function.update s.status x FROZEN } x
      else { s with q := q', status := Function.update s.status x FROZEN })).status i =
        Function.update s.status x FROZEN i := by
      rw [ite_vel_status]
    rw [hsi] at hi
    rw [hdi]
    by_cases hix : i = x
    · subst hix
      exact hp i (Or.inl hxt)
    · rw [Function.update_apply, if_neg hix] at hi
      exact hp i hi
  rw [hs']
  exact foldl_PInv m (nbrList m x) _ hh hpmid

theorem stepN_PInv (m : Mesh) (isVel : Bool) (hh : 0 < m.h) :
    ∀ (k : ℕ) (s : St), QInv s → PInv s → PInv (stepN m isVel k s) := by
  intro k
  induction k with
  | zero =>
    intro s _ hp
    exact hp
  | succ k ih =>
    intro s hQ hp
    unfold stepN
    cases h : solveStep m isVel s with
    | none => exact hp
    | some r =>
      exact ih r.2 (solveStep_QInv m isVel s r.1 r.2 (by rw [h]) hQ)
        (solveStep_PInv m isVel s r.1 r.2 (by rw [h]) hh hQ hp)

theorem countP_incr (p p' : ℕ → Bool) :
    ∀ (l : List ℕ) (x : ℕ), l.Nodup → x ∈ l →
      (∀ i ∈ l, i ≠ x → p' i = p i) → p x = false → p' x = true →
      l.countP p' = l.countP p + 1 := by
  intro l
  induction l with
  | nil =>
    intro x _ hx
    cases hx
  | cons a t ih =>
    intro x hnd hx hother hpx hp'x
    rw [List.countP_cons, List.countP_cons]
    have hanotint := (List.nodup_cons.mp hnd).1
    rcases List.mem_cons.mp hx with rfl | hxt
    · have ht : t.countP p' = t.countP p := by
        apply List.countP_congr
        intro i hi
        rw [hother i (List.mem_cons_of_mem x hi) (fun he => hanotint (he ▸ hi))]
      rw [ht, hpx, hp'x]
      simp
    · have hax : a ≠ x := fun he => hanotint (he ▸ hxt)
      have hpa : p' a = p a := hother a (List.mem_cons_self a t) hax
      rw [ih x (List.nodup_cons.mp hnd).2 hxt
        (fun i hi hne => hother i (List.mem_cons_of_mem a hi) hne) hpx hp'x, hpa]
      omega

theorem solveStep_frozen_iff (m : Mesh) (isVel : Bool) (s : St) (dx : ℝ) (s' : St)
    (h : solveStep m isVel s = some (dx, s')) :
    ∃ x q', popMin s.d s.q = some (x, q') ∧ s'.status x = FROZEN ∧
      ∀ i, i ≠ x → (s'.status i = FROZEN ↔ s.status i = FROZEN) := by
  obtain ⟨x, q', hpop, hchar⟩ := solveStep_status_char m isVel s dx s' h
  refine ⟨x, q', hpop, ?_, ?_⟩
  · rw [hchar x]
    have hupd : Function.update s.status x FROZEN x = FROZEN := by
      simp [Function.update_apply]
    rw [if_neg (fun hc => by rw [hupd] at hc; cases hc.2), hupd]
  · intro i hix
    rw [hchar i]
    have hupd : Function.update s.status x FROZEN i = s.status i := by
      rw [Function.update_apply, if_neg hix]
    by_cases hc : i ∈ nbrList m x ∧ Function.update s.status x FROZEN i = NONE
    · rw [if_pos hc]
      rw [hupd] at hc
      constructor
      · intro hT
        cases hT
      · intro hF
        rw [hc.2] at hF
        cases hF
    · rw [if_neg hc, hupd]

theorem solveStep_count (m : Mesh) (isVel : Bool) (s : St) (dx : ℝ) (s' : St)
    (h : solveStep m isVel s = some (dx, s')) (hQ : QInv s)
    (hrange : ∀ i ∈ s.q, i < m.nNodes) :
    ((List.range m.nNodes).countP fun i => decide (s'.status i = FROZEN)) =
      ((List.range m.nNodes).countP fun i => decide (s.status i = FROZEN)) + 1 := by
  obtain ⟨x, q', hpop, hfz, hiff⟩ := solveStep_frozen_iff m isVel s dx s' h
  have hxq : x ∈ s.q :=
    ((popMin_perm s.d s.q x q' hpop).mem_iff).mpr (List.mem_cons_self x q')
  have hxt : s.status x = TRIAL := (hQ.1 x).mp hxq
  apply countP_incr _ _ (List.range m.nNodes) x (List.nodup_range m.nNodes)
    (List.mem_range.mpr (hrange x hxq))
  · intro i _ hix
    exact decide_eq_decide.mpr (hiff i hix)
  · apply decide_eq_false
    rw [hxt]
    intro hc
    cases hc
  · exact decide_eq_true hfz

theorem solveStep_q_range (m : Mesh) (isVel : Bool) (s : St) (dx : ℝ) (s' : St)
    (hwf : m.WF) (h : solveStep m isVel s = some (dx, s')) (hQ : QInv s)
    (hrange : ∀ i ∈ s.q, i < m.nNodes) : ∀ i ∈ s'.q, i < m.nNodes := by
  intro i hi
  have hQ' := solveStep_QInv m isVel s dx s' h hQ
  have hT := (hQ'.1 i).mp hi
  obtain ⟨x, q', hpop, hchar⟩ := solveStep_status_char m isVel s dx s' h
  rw [hchar i] at hT
  by_cases hc : i ∈ nbrList m x ∧ Function.update s.status x FROZEN i = NONE
  · obtain ⟨p, _, hp⟩ := List.mem_filterMap.mp hc.1
    exact (hwf x p.1 p.2 i hp).2
  · rw [if_neg hc] at hT
    by_cases hix : i = x
    · rw [hix, Function.update_apply, if_pos rfl] at hT
      cases hT
    · rw [Function.update_apply, if_neg hix] at hT
      exact hrange i ((hQ.1 i).mpr hT)

theorem stepN_exhausts (m : Mesh) (isVel : Bool) (hwf : m.WF) :
    ∀ (k : ℕ) (s : St), QInv s → (∀ i ∈ s.q, i < m.nNodes) →
      m.nNodes ≤ k + ((List.range m.nNodes).countP fun i => decide (s.status i = FROZEN)) →
      (stepN m isVel k s).q = [] := by
  intro k
  induction k with
  | zero =>
    intro s hQ hrange hk
    have hle := List.countP_le_length
      (p := fun i => decide (s.status i = FROZEN)) (l := List.range m.nNodes)
    rw [List.length_range] at hle
    have heq : ((List.range m.nNodes).countP fun i => decide (s.status i = FROZEN)) =
        (List.range m.nNodes).length := by
      rw [List.length_range]
      omega
    have hall := List.countP_eq_length.mp heq
    rw [List.eq_nil_iff_forall_not_mem]
    intro i hi
    have hT := (hQ.1 i).mp hi
    have hlt := hrange i hi
    have hF := of_decide_eq_true (hall i (List.mem_range.mpr hlt))
    rw [hT] at hF
    cases hF
  | succ k ih =>
    intro s hQ hrange hk
    unfold stepN
    cases h : solveStep m isVel s with
    | none => exact (solveStep_none_iff m isVel s).mp h
    | some r =>
      apply ih r.2 (solveStep_QInv m isVel s r.1 r.2 (by rw [h]) hQ)
        (solveStep_q_range m isVel s r.1 r.2 hwf (by rw [h]) hQ hrange)
      rw [solveStep_count m isVel s r.1 r.2 (by rw [h]) hQ hrange]
      omega

theorem runState_q_nil (m : Mesh) (isVel : Bool) (φ : ℕ → ℝ) (masked : ℕ → Bool)
    (vel : ℕ → ℝ) (hwf : m.WF) : (runState m isVel φ masked vel).q = [] := by
  rw [runState_eq_stepN]
  apply stepN_exhausts m isVel hwf m.nNodes (trialSt m φ masked vel)
    (trialSt_QInv m φ masked vel hwf)
  · intro i hi
    have := (List.mem_filter.mp hi).1
    exact List.mem_range.mp this
  · omega

theorem runState_no_trial (m : Mesh) (isVel : Bool) (φ : ℕ → ℝ) (masked : ℕ → Bool)
    (vel : ℕ → ℝ) (hwf : m.WF) (i : ℕ) :
    (runState m isVel φ masked vel).status i ≠ TRIAL := by
  intro hT
  have hQ : QInv (runState m isVel φ masked vel) := by
    rw [runState_eq_stepN]
    exact stepN_QInv m isVel m.nNodes _ (trialSt_QInv m φ masked vel hwf)
  have hmem := (hQ.1 i).mpr hT
  rw [runState_q_nil m isVel φ masked vel hwf] at hmem
  cases hmem
theorem stepN_MaskInv (masked : ℕ → Bool) (m : Mesh) (isVel : Bool) :
    ∀ (k : ℕ) (s : St), QInv s → MaskInv masked s → MaskInv masked (stepN m isVel k s) := by
  intro k
  induction k with
  | zero =>
    intro s _ hM
    exact hM
  | succ k ih =>
    intro s hQ hM
    unfold stepN
    cases h : solveStep m isVel s with
    | none => exact hM
    | some r =>
      exact ih r.2 (solveStep_QInv m isVel s r.1 r.2 (by rw [h]) hQ)
        (solveStep_MaskInv masked m isVel s r.1 r.2 (by rw [h]) hQ hM)

theorem initSt_masked_d (m : Mesh) (φ : ℕ → ℝ) (masked : ℕ → Bool) (vel : ℕ → ℝ)
    (i : ℕ) (hm : masked i = true) : (initSt m φ masked vel).d i = φ i := by
  show (if masked i then φ i else _) = φ i
  rw [if_pos hm]

theorem runState_d_cases (m : Mesh) (isVel : Bool) (φ : ℕ → ℝ) (masked : ℕ → Bool)
    (vel : ℕ → ℝ) (hwf : m.WF) (hh : 0 < m.h) (i : ℕ) :
    ((runState m isVel φ masked vel).status i = FROZEN ∧
        0 < (runState m isVel φ masked vel).d i) ∨
      ((runState m isVel φ masked vel).status i ≠ FROZEN ∧
        (runState m isVel φ masked vel).d i = φ i) := by
  have hQt := trialSt_QInv m φ masked vel hwf
  have hnt := runState_no_trial m isVel φ masked vel hwf i
  rw [runState_eq_stepN] at hnt ⊢
  cases hst : (stepN m isVel m.nNodes (trialSt m φ masked vel)).status i with
  | FROZEN =>
    left
    exact ⟨rfl, stepN_PInv m isVel hh m.nNodes _ hQt (trialSt_PInv m φ masked vel hh) i
      (Or.inr hst)⟩
  | TRIAL => exact absurd hst hnt
  | MASKED =>
    right
    refine ⟨fun hF => NodeStatus.noConfusion hF, ?_⟩
    have hm : masked i = true :=
      (stepN_MaskInv masked m isVel m.nNodes _ hQt (trialSt_MaskInv m φ masked vel) i).mp hst
    have htm : (trialSt m φ masked vel).status i = MASKED :=
      (trialSt_MaskInv m φ masked vel i).mpr hm
    have hd := (stepN_masked m isVel m.nNodes _ hQt i htm).2.1
    rw [hd, (trialSt_preserves_not_none m φ masked vel i
      (by rw [(initSt_masked_iff m φ masked vel i).mpr hm]; intro hc; cases hc)).2,
      initSt_masked_d m φ masked vel i hm]
  | NONE =>
    right
    refine ⟨fun hF => NodeStatus.noConfusion hF, ?_⟩
    obtain ⟨htn, hd, _⟩ := stepN_none_rev m isVel m.nNodes _ i hst
    rw [hd, (trialSt_status_none m φ masked vel i htn).2]
theorem march_sign_aux (m : Mesh) (isVel : Bool) (φ : ℕ → ℝ) (masked : ℕ → Bool)
    (vel : ℕ → ℝ) (hwf : m.WF) (hh : 0 < m.h) (i : ℕ) (hphi : φ i ≠ 0) :
    Real.sign (if (runState m isVel φ masked vel).status i = FROZEN
        then (if φ i < 0 then -(runState m isVel φ masked vel).d i
          else (runState m isVel φ masked vel).d i)
        else (runState m isVel φ masked vel).d i) = Real.sign (φ i) := by
  rcases runState_d_cases m isVel φ masked vel hwf hh i with ⟨hF, hpos⟩ | ⟨hnF, hd⟩
  · rw [if_pos hF]
    rcases lt_trichotomy (φ i) 0 with hlt | heq | hgt
    · rw [if_pos hlt, Real.sign_of_neg (by linarith), Real.sign_of_neg hlt]
    · exact absurd heq hphi
    · rw [if_neg (not_lt.mpr (le_of_lt hgt)), Real.sign_of_pos hpos,
        Real.sign_of_pos hgt]
  · rw [if_neg hnF, hd]

/-- C2: for every node whose caller-supplied input value is nonzero, the sign
of the signed-distance value after the march equals the sign of the input
value, in distance mode and in velocity-extension mode alike — the field is
rewritten in place with recomputed magnitudes and the retained input sign
restored.  (For a node with input value exactly zero that the march freezes,
the output is a strictly positive distance, so sign equality holds only on
nonzero inputs; see the counterexample.) -/
theorem sign_preservation (m : Mesh) (φ : ℕ → ℝ) (masked : ℕ → Bool) (vel : ℕ → ℝ)
    (hwf : m.WF) (hh : 0 < m.h) (i : ℕ) (hphi : φ i ≠ 0) :
    Real.sign (march m φ masked i) = Real.sign (φ i) ∧
      Real.sign ((marchVel m φ masked vel).1 i) = Real.sign (φ i) := by
  constructor
  · exact march_sign_aux m false φ masked (fun _ => 0) hwf hh i hphi
  · exact march_sign_aux m true φ masked vel hwf hh i hphi

theorem sign_preservation_witness :
    (lineMesh 2 2).WF ∧ (0 : ℝ) < (lineMesh 2 2).h ∧ phiHalf 0 ≠ 0 ∧
      (Real.sign (march (lineMesh 2 2) phiHalf noMask 0) = Real.sign (phiHalf 0) ∧
        Real.sign ((marchVel (lineMesh 2 2) phiHalf noMask velThree).1 0) =
          Real.sign (phiHalf 0)) :=
  ⟨lineMesh_WF 2 2, by norm_num [lineMesh], by norm_num [phiHalf],
    sign_preservation (lineMesh 2 2) phiHalf noMask velThree (lineMesh_WF 2 2)
      (by norm_num [lineMesh]) 0 (by norm_num [phiHalf])⟩
theorem lineThree_boundaryDist0 : boundaryDist (lineMesh 3 1) phiZ 0 = some (1 / 2) := by
  have h0 : edgeContribution (lineMesh 3 1) phiZ 0 false false = Option.none := rfl
  have h1 : edgeContribution (lineMesh 3 1) phiZ 0 false true = some (1 / 2) := by
    have hj : (lineMesh 3 1).neighbour 0 false true = some 1 := rfl
    rw [edgeContribution_eq (lineMesh 3 1) phiZ 0 false true 1 hj (by norm_num [phiZ])]
    congr 1
    rw [show phiZ 0 - phiZ 1 = -2 from by norm_num [phiZ],
      show phiZ 0 = (-1 : ℝ) from by norm_num [phiZ]]
    rw [abs_neg, abs_neg, abs_one, abs_two]
    show (1 : ℝ) * 1 / 2 = 1 / 2
    norm_num
  have hax0 : axisBoundaryDist (lineMesh 3 1) phiZ 0 false = some (1 / 2) := by
    unfold axisBoundaryDist
    rw [h0, h1]
  have hax1 : axisBoundaryDist (lineMesh 3 1) phiZ 0 true = Option.none := rfl
  unfold boundaryDist
  rw [hax0, hax1]

theorem lineThree_boundaryDist1 : boundaryDist (lineMesh 3 1) phiZ 1 = some (1 / 2) := by
  have h0 : edgeContribution (lineMesh 3 1) phiZ 1 false false = some (1 / 2) := by
    have hj : (lineMesh 3 1).neighbour 1 false false = some 0 := rfl
    rw [edgeContribution_eq (lineMesh 3 1) phiZ 1 false false 0 hj (by norm_num [phiZ])]
    congr 1
    rw [show phiZ 1 - phiZ 0 = 2 from by norm_num [phiZ],
      show phiZ 1 = (1 : ℝ) from by norm_num [phiZ]]
    rw [abs_one, abs_two]
    show (1 : ℝ) * 1 / 2 = 1 / 2
    norm_num
  have h1 : edgeContribution (lineMesh 3 1) phiZ 1 false true = Option.none := by
    have hj : (lineMesh 3 1).neighbour 1 false true = some 2 := rfl
    unfold edgeContribution
    rw [hj]
    show (if phiZ 1 * phiZ 2 < 0 then _ else Option.none) = Option.none
    rw [if_neg (by norm_num [phiZ])]
  have hax0 : axisBoundaryDist (lineMesh 3 1) phiZ 1 false = some (1 / 2) := by
    unfold axisBoundaryDist
    rw [h0, h1]
  have hax1 : axisBoundaryDist (lineMesh 3 1) phiZ 1 true = Option.none := rfl
  unfold boundaryDist
  rw [hax0, hax1]

theorem lineThree_boundaryDist2 : boundaryDist (lineMesh 3 1) phiZ 2 = Option.none := by
  have h0 : edgeContribution (lineMesh 3 1) phiZ 2 false false = Option.none := by
    have hj : (lineMesh 3 1).neighbour 2 false false = some 1 := rfl
    unfold edgeContribution
    rw [hj]
    show (if phiZ 2 * phiZ 1 < 0 then _ else Option.none) = Option.none
    rw [if_neg (by norm_num [phiZ])]
  have h1 : edgeContribution (lineMesh 3 1) phiZ 2 false true = Option.none := rfl
  have hax0 : axisBoundaryDist (lineMesh 3 1) phiZ 2 false = Option.none := by
    unfold axisBoundaryDist
    rw [h0, h1]
  have hax1 : axisBoundaryDist (lineMesh 3 1) phiZ 2 true = Option.none := rfl
  unfold boundaryDist
  rw [hax0, hax1]

theorem lineThree_initSt (vel : ℕ → ℝ) :
    (initSt (lineMesh 3 1) phiZ noMask vel).status 0 = FROZEN ∧
    (initSt (lineMesh 3 1) phiZ noMask vel).status 1 = FROZEN ∧
    (initSt (lineMesh 3 1) phiZ noMask vel).status 2 = NONE ∧
    (initSt (lineMesh 3 1) phiZ noMask vel).d 1 = 1 / 2 ∧
    (initSt (lineMesh 3 1) phiZ noMask vel).d 2 = 0 := by
  unfold initSt
  dsimp only
  rw [lineThree_boundaryDist0, lineThree_boundaryDist1, lineThree_boundaryDist2]
  simp [noMask, phiZ]
theorem lineThree_nbr2 : nbrList (lineMesh 3 1) 2 = [1] := by decide

theorem lineThree_hasFrozen2 (vel : ℕ → ℝ) :
    hasFrozenNbr (lineMesh 3 1) (initSt (lineMesh 3 1) phiZ noMask vel) 2 :=
  ⟨1, by rw [lineThree_nbr2]; exact List.mem_cons_self 1 [], (lineThree_initSt vel).2.1⟩

theorem filter_range_three (p : ℕ → Bool) (h0 : p 0 = false) (h1 : p 1 = false)
    (h2 : p 2 = true) : (List.range 3).filter p = [2] := by
  rw [show List.range 3 = [0, 1, 2] from rfl]
  simp [List.filter, h0, h1, h2]

theorem lineThree_trialSt_q (vel : ℕ → ℝ) :
    (trialSt (lineMesh 3 1) phiZ noMask vel).q = [2] := by
  have e : (trialSt (lineMesh 3 1) phiZ noMask vel).q =
      (List.range 3).filter (fun i =>
        decide ((initSt (lineMesh 3 1) phiZ noMask vel).status i = NONE ∧
          hasFrozenNbr (lineMesh 3 1) (initSt (lineMesh 3 1) phiZ noMask vel) i)) := rfl
  rw [e]
  apply filter_range_three
  · apply decide_eq_false
    intro hc
    have h := (lineThree_initSt vel).1
    rw [hc.1] at h
    cases h
  · apply decide_eq_false
    intro hc
    have h := (lineThree_initSt vel).2.1
    rw [hc.1] at h
    cases h
  · exact decide_eq_true ⟨(lineThree_initSt vel).2.2.1, lineThree_hasFrozen2 vel⟩

theorem lineThree_contributors2 (vel : ℕ → ℝ) :
    contributors (lineMesh 3 1) (initSt (lineMesh 3 1) phiZ noMask vel) 2 = [1 / 2] := by
  have hs1 := (lineThree_initSt vel).2.1
  have hd1 := (lineThree_initSt vel).2.2.2.1
  have hfv : frozenVal (initSt (lineMesh 3 1) phiZ noMask vel) (some 1) =
      some ((1 : ℝ) / 2) := by
    show (if (initSt (lineMesh 3 1) phiZ noMask vel).status 1 = FROZEN
      then some ((initSt (lineMesh 3 1) phiZ noMask vel).d 1) else Option.none) = _
    rw [if_pos hs1, hd1]
  have hup0 : upwind (lineMesh 3 1) (initSt (lineMesh 3 1) phiZ noMask vel) 2 false =
      some (1 / 2) := by
    unfold upwind
    rw [show (lineMesh 3 1).neighbour 2 false false = some 1 from rfl,
      show (lineMesh 3 1).neighbour 2 false true = (Option.none : Option ℕ) from rfl, hfv]
    rfl
  have hup1 : upwind (lineMesh 3 1) (initSt (lineMesh 3 1) phiZ noMask vel) 2 true =
      Option.none := rfl
  unfold contributors
  rw [hup0, hup1]
  rfl

theorem lineThree_trialSt_d2 (vel : ℕ → ℝ) :
    (trialSt (lineMesh 3 1) phiZ noMask vel).d 2 = 3 / 2 := by
  show (if _ then updateNode (lineMesh 3 1) (initSt (lineMesh 3 1) phiZ noMask vel) 2
    else _) = (3 : ℝ) / 2
  rw [if_pos ⟨(lineThree_initSt vel).2.2.1, lineThree_hasFrozen2 vel⟩,
    updateNode_one_eq (lineMesh 3 1) _ 2 (1 / 2) (by show (0:ℝ) < 1; norm_num)
      (lineThree_contributors2 vel)]
  show (1 : ℝ) / 2 + 1 = 3 / 2
  norm_num
theorem lineThree_runState_2 (vel : ℕ → ℝ) :
    (runState (lineMesh 3 1) false phiZ noMask vel).status 2 = FROZEN ∧
      (runState (lineMesh 3 1) false phiZ noMask vel).d 2 = 3 / 2 := by
  set s := trialSt (lineMesh 3 1) phiZ noMask vel with hs
  set s₁ : St := { s with q := [], status := Function.update s.status 2 FROZEN } with hs₁
  have hstatus1 : s.status 1 = FROZEN := by
    rw [hs]
    exact (trialSt_preserves_not_none (lineMesh 3 1) phiZ noMask vel 1
      (by rw [(lineThree_initSt vel).2.1]; intro hc; cases hc)).1.trans
      (lineThree_initSt vel).2.1
  have hq : s.q = [2] := lineThree_trialSt_q vel
  have hpop : popMin s.d s.q = some (2, []) := by rw [hq]; rfl
  have hs1 : s₁.status 1 = FROZEN := by
    show Function.update s.status 2 FROZEN 1 = FROZEN
    rw [Function.update_apply, if_neg (by norm_num)]
    exact hstatus1
  have hupd : updateNeighbour (lineMesh 3 1) s₁ 1 = s₁ := by
    unfold updateNeighbour
    rw [hs1]
  have hstep : solveStep (lineMesh 3 1) false s = some (s.d 2, s₁) := by
    unfold solveStep
    rw [hpop]
    show some (s.d 2, updateNeighbour (lineMesh 3 1) s₁ 1) = some (s.d 2, s₁)
    rw [hupd]
  have hrun : runState (lineMesh 3 1) false phiZ noMask vel = s₁ := by
    rw [runState_eq_stepN, ← hs]
    show stepN (lineMesh 3 1) false 3 s = s₁
    unfold stepN
    rw [hstep]
    show stepN (lineMesh 3 1) false 2 s₁ = s₁
    exact stepN_empty_q (lineMesh 3 1) false 2 s₁ rfl
  rw [hrun]
  constructor
  · show Function.update s.status 2 FROZEN 2 = FROZEN
    rw [Function.update_apply, if_pos rfl]
  · show s.d 2 = 3 / 2
    exact lineThree_trialSt_d2 vel

/-- The sign-preservation claim fails as stated on a node whose input value
is exactly zero: on a three-node line with input values −1, +1, 0 the third
node is marched to the strictly positive distance 3/2, so the sign of its
output differs from the sign (zero) of its input. -/
theorem sign_preservation_counterexample :
    Real.sign (march (lineMesh 3 1) phiZ noMask 2) ≠ Real.sign (phiZ 2) := by
  obtain ⟨hs2, hd2⟩ := lineThree_runState_2 fun _ => 0
  have hm : march (lineMesh 3 1) phiZ noMask 2 = 3 / 2 := by
    show (if (runState (lineMesh 3 1) false phiZ noMask fun _ => 0).status 2 = FROZEN
        then (if phiZ 2 < 0
          then -(runState (lineMesh 3 1) false phiZ noMask fun _ => 0).d 2
          else (runState (lineMesh 3 1) false phiZ noMask fun _ => 0).d 2)
        else (runState (lineMesh 3 1) false phiZ noMask fun _ => 0).d 2) = (3 : ℝ) / 2
    rw [if_pos hs2, if_neg (by norm_num [phiZ]), hd2]
  rw [hm, show phiZ 2 = (0 : ℝ) from by norm_num [phiZ],
    Real.sign_of_pos (by norm_num : (0 : ℝ) < 3 / 2), Real.sign_zero]
  norm_num
theorem slot_mem_nbrList (m : Mesh) (y j : ℕ) (a sd : Bool)
    (h : m.neighbour y a sd = some j) : j ∈ nbrList m y := by
  unfold nbrList
  exact List.mem_filterMap.mpr ⟨(a, sd), by cases a <;> cases sd <;> simp [slots], h⟩

theorem nbr_slot_exists (m : Mesh) (y j : ℕ) (h : j ∈ nbrList m y) :
    ∃ a sd, m.neighbour y a sd = some j := by
  unfold nbrList at h
  obtain ⟨p, _, hp⟩ := List.mem_filterMap.mp h
  exact ⟨p.1, p.2, hp⟩

theorem upwind_some_mem (m : Mesh) (s : St) (y : ℕ) (a : Bool) (u : ℝ)
    (h : upwind m s y a = some u) : u ∈ contributors m s y := by
  unfold contributors
  apply List.mem_filterMap.mpr
  refine ⟨some u, ?_, rfl⟩
  cases a with
  | false =>
    rw [← h]
    exact List.mem_cons_self _ _
  | true =>
    rw [← h]
    exact List.mem_cons_of_mem _ (List.mem_cons_self _ _)

theorem contributors_le_of_frozen_nbr (m : Mesh) (s : St) (y j : ℕ)
    (hj : j ∈ nbrList m y) (hf : s.status j = FROZEN) :
    ∃ u ∈ contributors m s y, u ≤ s.d j := by
  obtain ⟨a, sd, hslot⟩ := nbr_slot_exists m y j hj
  have hfv : frozenVal s (m.neighbour y a sd) = some (s.d j) := by
    rw [hslot]
    show (if s.status j = FROZEN then some (s.d j) else Option.none) = _
    rw [if_pos hf]
  cases sd with
  | false =>
    cases hR : frozenVal s (m.neighbour y a true) with
    | none =>
      have hup : upwind m s y a = some (s.d j) := by
        unfold upwind
        rw [hfv, hR]
      exact ⟨s.d j, upwind_some_mem m s y a _ hup, le_refl _⟩
    | some w =>
      have hup : upwind m s y a = some (min (s.d j) w) := by
        unfold upwind
        rw [hfv, hR]
      exact ⟨min (s.d j) w, upwind_some_mem m s y a _ hup, min_le_left _ _⟩
  | true =>
    cases hL : frozenVal s (m.neighbour y a false) with
    | none =>
      have hup : upwind m s y a = some (s.d j) := by
        unfold upwind
        rw [hfv, hL]
      exact ⟨s.d j, upwind_some_mem m s y a _ hup, le_refl _⟩
    | some w =>
      have hup : upwind m s y a = some (min w (s.d j)) := by
        unfold upwind
        rw [hfv, hL]
      exact ⟨min w (s.d j), upwind_some_mem m s y a _ hup, min_le_right _ _⟩
theorem frozenVal_freeze_dichotomy (s : St) (x : ℕ) (hx : s.status x ≠ FROZEN)
    (s₂ : St) (hst : ∀ j, s₂.status j = Function.update s.status x FROZEN j)
    (hd : ∀ j, s₂.d j = s.d j) (o : Option ℕ) :
    frozenVal s₂ o = frozenVal s o ∨
      (frozenVal s₂ o = some (s.d x) ∧ frozenVal s o = Option.none ∧ o = some x) := by
  cases o with
  | none => exact Or.inl rfl
  | some j =>
    by_cases hjx : j = x
    · subst hjx
      right
      refine ⟨?_, ?_, rfl⟩
      · show (if s₂.status j = FROZEN then some (s₂.d j) else Option.none) = _
        rw [if_pos (by rw [hst j, Function.update_apply, if_pos rfl]), hd j]
      · show (if s.status j = FROZEN then some (s.d j) else Option.none) = _
        rw [if_neg hx]
    · left
      show (if s₂.status j = FROZEN then some (s₂.d j) else Option.none) =
        (if s.status j = FROZEN then some (s.d j) else Option.none)
      rw [hst j, Function.update_apply, if_neg hjx, hd j]

theorem upwind_freeze_dichotomy (m : Mesh) (s : St) (x : ℕ) (hx : s.status x ≠ FROZEN)
    (s₂ : St) (hst : ∀ j, s₂.status j = Function.update s.status x FROZEN j)
    (hd : ∀ j, s₂.d j = s.d j) (y : ℕ) (a : Bool) :
    upwind m s₂ y a = upwind m s y a ∨ upwind m s₂ y a = some (s.d x) := by
  unfold upwind
  rcases frozenVal_freeze_dichotomy s x hx s₂ hst hd (m.neighbour y a false) with
    hL | ⟨hL, hL', _⟩ <;>
    rcases frozenVal_freeze_dichotomy s x hx s₂ hst hd (m.neighbour y a true) with
      hR | ⟨hR, hR', _⟩
  · rw [hL, hR]
    exact Or.inl rfl
  · rw [hL, hR, hR']
    cases hcL : frozenVal s (m.neighbour y a false) with
    | none => exact Or.inr rfl
    | some u =>
      rcases le_total u (s.d x) with hle | hle
      · refine Or.inl ?_
        show some (min u (s.d x)) = some u
        rw [min_eq_left hle]
      · refine Or.inr ?_
        show some (min u (s.d x)) = some (s.d x)
        rw [min_eq_right hle]
  · rw [hL, hR, hL']
    cases hcR : frozenVal s (m.neighbour y a true) with
    | none => exact Or.inr rfl
    | some w =>
      rcases le_total (s.d x) w with hle | hle
      · refine Or.inr ?_
        show some (min (s.d x) w) = some (s.d x)
        rw [min_eq_left hle]
      · refine Or.inl ?_
        show some (min (s.d x) w) = some w
        rw [min_eq_right hle]
  · rw [hL, hR]
    refine Or.inr ?_
    show some (min (s.d x) (s.d x)) = some (s.d x)
    rw [min_self]

theorem upwind_stable_no_slot (m : Mesh) (s : St) (x : ℕ)
    (s₂ : St) (hst : ∀ j, s₂.status j = Function.update s.status x FROZEN j)
    (hd : ∀ j, s₂.d j = s.d j) (y : ℕ) (a : Bool)
    (hno : ∀ sd : Bool, m.neighbour y a sd ≠ some x) :
    upwind m s₂ y a = upwind m s y a := by
  have hfv : ∀ sd : Bool, frozenVal s₂ (m.neighbour y a sd) =
      frozenVal s (m.neighbour y a sd) := by
    intro sd
    cases ho : m.neighbour y a sd with
    | none => rfl
    | some j =>
      have hjx : j ≠ x := fun he => hno sd (he ▸ ho)
      show (if s₂.status j = FROZEN then some (s₂.d j) else Option.none) =
        (if s.status j = FROZEN then some (s.d j) else Option.none)
      rw [hst j, Function.update_apply, if_neg hjx, hd j]
  unfold upwind
  rw [hfv false, hfv true]
theorem contributors_freeze_dichotomy (m : Mesh) (s : St) (x : ℕ)
    (hx : s.status x ≠ FROZEN) (s₂ : St)
    (hst : ∀ j, s₂.status j = Function.update s.status x FROZEN j)
    (hd : ∀ j, s₂.d j = s.d j) (y : ℕ) :
    contributors m s₂ y = contributors m s y ∨
      (s.d x ∈ contributors m s₂ y ∧
        ∀ u ∈ contributors m s₂ y, u = s.d x ∨ u ∈ contributors m s y) := by
  rcases upwind_freeze_dichotomy m s x hx s₂ hst hd y false with h0 | h0 <;>
    rcases upwind_freeze_dichotomy m s x hx s₂ hst hd y true with h1 | h1
  · left
    unfold contributors
    rw [h0, h1]
  · right
    constructor
    · exact upwind_some_mem m s₂ y true _ h1
    · intro u hu
      unfold contributors at hu ⊢
      rw [h0, h1] at hu
      cases hc : upwind m s y false with
      | none =>
        rw [hc] at hu
        simp at hu
        exact Or.inl hu
      | some w =>
        rw [hc] at hu
        simp at hu
        rcases hu with hu | hu
        · right
          simp [hu]
        · exact Or.inl hu
  · right
    constructor
    · exact upwind_some_mem m s₂ y false _ h0
    · intro u hu
      unfold contributors at hu ⊢
      rw [h0, h1] at hu
      cases hc : upwind m s y true with
      | none =>
        rw [hc] at hu
        simp at hu
        exact Or.inl hu
      | some w =>
        rw [hc] at hu
        simp at hu
        rcases hu with hu | hu
        · exact Or.inl hu
        · right
          simp [hu]
  · right
    constructor
    · exact upwind_some_mem m s₂ y false _ h0
    · intro u hu
      unfold contributors at hu
      rw [h0, h1] at hu
      simp at hu
      exact Or.inl hu

theorem updateNode_eq_of_contr (m : Mesh) (s s₂ : St) (y : ℕ)
    (h : contributors m s₂ y = contributors m s y) :
    updateNode m s₂ y = updateNode m s y := by
  unfold updateNode
  rw [h]

theorem updateNode_stable_not_nbr (m : Mesh) (hsym : m.Symm) (s : St) (x : ℕ)
    (s₂ : St) (hst : ∀ j, s₂.status j = Function.update s.status x FROZEN j)
    (hd : ∀ j, s₂.d j = s.d j) (y : ℕ) (hy : y ∉ nbrList m x) :
    updateNode m s₂ y = updateNode m s y := by
  apply updateNode_eq_of_contr
  unfold contributors
  have hup : ∀ a : Bool, upwind m s₂ y a = upwind m s y a := by
    intro a
    apply upwind_stable_no_slot m s x s₂ hst hd y a
    intro sd hslot
    have hxy : x ∈ nbrList m y := slot_mem_nbrList m y x a sd hslot
    exact hy (nbrList_symm m hsym y x hxy)
  rw [hup false, hup true]
theorem upwind_isSome_of_frozen_slot (m : Mesh) (s : St) (y : ℕ) (a sd : Bool) (v : ℝ)
    (h : frozenVal s (m.neighbour y a sd) = some v) : ∃ u, upwind m s y a = some u := by
  cases sd with
  | false =>
    cases hR : frozenVal s (m.neighbour y a true) with
    | none =>
      refine ⟨v, ?_⟩
      unfold upwind
      rw [h, hR]
    | some w =>
      refine ⟨min v w, ?_⟩
      unfold upwind
      rw [h, hR]
  | true =>
    cases hL : frozenVal s (m.neighbour y a false) with
    | none =>
      refine ⟨v, ?_⟩
      unfold upwind
      rw [h, hL]
    | some u =>
      refine ⟨min u v, ?_⟩
      unfold upwind
      rw [h, hL]

theorem freeze_update_ge (m : Mesh) (hsym : m.Symm) (hh : 0 < m.h) (s : St) (x : ℕ)
    (hxT : s.status x = TRIAL) (s₂ : St)
    (hst : ∀ j, s₂.status j = Function.update s.status x FROZEN j)
    (hd : ∀ j, s₂.d j = s.d j) (hQ : QInv s) (dLast : ℝ) (hM : MonoInv m dLast s)
    (hmin : ∀ z ∈ s.q, s.d x ≤ s.d z) (y : ℕ)
    (hy : s.status y = TRIAL ∨ (s.status y = NONE ∧ y ∈ nbrList m x)) :
    s.d x ≤ updateNode m s₂ y := by
  have hx : s.status x ≠ FROZEN := by
    rw [hxT]
    intro hc
    cases hc
  have hub : ∀ u ∈ contributors m s y, s.d x - m.h ≤ u := by
    intro u hu
    obtain ⟨j, hjn, hjf, hje⟩ := contributor_is_frozen_val m s y u hu
    rcases hy with hyT | ⟨hyN, _⟩
    · have hB := hM.1 y j hyT hjn hjf
      have hge := hmin y ((hQ.1 y).mpr hyT)
      rw [hje]
      linarith
    · exact absurd ⟨j, hjn, hjf⟩ (hM.2.2.1 y hyN)
  rcases contributors_freeze_dichotomy m s x hx s₂ hst hd y with hcd | ⟨hmem, hall⟩
  · rw [updateNode_eq_of_contr m s s₂ y hcd]
    rcases hy with hyT | ⟨hyN, hyl⟩
    · have hC := hM.2.1 y hyT
      have hge := hmin y ((hQ.1 y).mpr hyT)
      linarith
    · exfalso
      have hxy : x ∈ nbrList m y := nbrList_symm m hsym x y hyl
      obtain ⟨a, sd, hslot⟩ := nbr_slot_exists m y x hxy
      have hfv : frozenVal s₂ (m.neighbour y a sd) = some (s₂.d x) := by
        rw [hslot]
        show (if s₂.status x = FROZEN then some (s₂.d x) else Option.none) = _
        rw [if_pos (by rw [hst x, Function.update_apply, if_pos rfl])]
      obtain ⟨u, hup⟩ := upwind_isSome_of_frozen_slot m s₂ y a sd _ hfv
      have humem : u ∈ contributors m s₂ y := upwind_some_mem m s₂ y a u hup
      rw [hcd] at humem
      obtain ⟨j, hjn, hjf, _⟩ := contributor_is_frozen_val m s y u humem
      exact absurd ⟨j, hjn, hjf⟩ (hM.2.2.1 y hyN)
  · apply updateNode_ge m s₂ y (s.d x) hh hmem
    intro u hu
    rcases hall u hu with he | hold
    · rw [he]
      linarith
    · exact hub u hold
theorem solveStep_MonoInv (m : Mesh) (isVel : Bool) (s : St) (dx : ℝ) (s' : St)
    (h : solveStep m isVel s = some (dx, s')) (hsym : m.Symm) (hh : 0 < m.h)
    (hQ : QInv s) (dLast : ℝ) (hM : MonoInv m dLast s) :
    dLast ≤ dx ∧ MonoInv m dx s' := by
  obtain ⟨x, q', hpop, hdx, hs'⟩ := solveStep_some m isVel s dx s' h
  have hxq : x ∈ s.q :=
    ((popMin_perm s.d s.q x q' hpop).mem_iff).mpr (List.mem_cons_self x q')
  have hxT : s.status x = TRIAL := (hQ.1 x).mp hxq
  have hmin : ∀ z ∈ s.q, s.d x ≤ s.d z := popMin_le s.d s.q x q' hpop
  subst hdx
  set s₂ : St := (if isVel then
      finaliseVelocity m { s with q := q', status := Function.update s.status x FROZEN } x
    else { s with q := q', status := Function.update s.status x FROZEN }) with hs₂def
  have hst₂ : ∀ j, s₂.status j = Function.update s.status x FROZEN j := by
    intro j
    rw [hs₂def, ite_vel_status]
  have hd₂ : ∀ j, s₂.d j = s.d j := by
    intro j
    rw [hs₂def, ite_vel_d]
  have hfe : FrozenEq s₂ s' := by
    rw [hs']
    exact foldl_FrozenEq m s₂ (nbrList m x) s₂ (FrozenEq_refl s₂)
  have hstat' : ∀ j, s'.status j =
      if j ∈ nbrList m x ∧ s₂.status j = NONE then TRIAL else s₂.status j := by
    intro j
    rw [hs']
    exact foldl_updateNeighbour_status m (nbrList m x) s₂ j
  have htrial' : ∀ y, s'.status y = TRIAL →
      (y ∈ nbrList m x ∧ s.status y = NONE ∧ y ≠ x) ∨ (s.status y = TRIAL ∧ y ≠ x) := by
    intro y hy
    rw [hstat' y] at hy
    by_cases hc : y ∈ nbrList m x ∧ s₂.status y = NONE
    · left
      have h2 := hc.2
      rw [hst₂ y, Function.update_apply] at h2
      by_cases hyx : y = x
      · rw [if_pos hyx] at h2
        cases h2
      · rw [if_neg hyx] at h2
        exact ⟨hc.1, h2, hyx⟩
    · right
      rw [if_neg hc, hst₂ y, Function.update_apply] at hy
      by_cases hyx : y = x
      · rw [if_pos hyx] at hy
        cases hy
      · rw [if_neg hyx] at hy
        exact ⟨hy, hyx⟩
  have hfro' : ∀ j, s'.status j = FROZEN → s₂.status j = FROZEN := by
    intro j hj
    rw [hstat' j] at hj
    by_cases hc : j ∈ nbrList m x ∧ s₂.status j = NONE
    · rw [if_pos hc] at hj
      cases hj
    · rw [if_neg hc] at hj
      exact hj
  have hfro'' : ∀ j, s₂.status j = FROZEN → j = x ∨ s.status j = FROZEN := by
    intro j hj
    rw [hst₂ j, Function.update_apply] at hj
    by_cases hjx : j = x
    · exact Or.inl hjx
    · rw [if_neg hjx] at hj
      exact Or.inr hj
  have hdfro : ∀ j, s₂.status j = FROZEN → s'.d j = s.d j := by
    intro j hj
    rw [hs', foldl_updateNeighbour_d_frozen_masked m (nbrList m x) s₂ j (Or.inl hj), hd₂ j]
  have hs₂trial : ∀ y, s'.status y = TRIAL →
      s₂.status y = TRIAL ∨ s₂.status y = NONE := by
    intro y hy
    rcases htrial' y hy with ⟨_, hN, hyx⟩ | ⟨hT, hyx⟩
    · right
      rw [hst₂ y, Function.update_apply, if_neg hyx]
      exact hN
    · left
      rw [hst₂ y, Function.update_apply, if_neg hyx]
      exact hT
  have hble : ∀ y, s'.status y = TRIAL → y ∈ nbrList m x →
      s'.d y ≤ updateNode m s₂ y := by
    intro y hy hyl
    have hy2 := hs₂trial y hy
    rw [hs']
    exact foldl_d_le m s₂ (nbrList m x) s₂ (FrozenEq_refl s₂) y hyl hy2
  have hge : ∀ y, (s.status y = TRIAL ∨ (s.status y = NONE ∧ y ∈ nbrList m x)) →
      s.d x ≤ updateNode m s₂ y :=
    fun y hy => freeze_update_ge m hsym hh s x hxT s₂ hst₂ hd₂ hQ dLast hM hmin y hy
  refine ⟨hM.2.2.2 x hxT, ?_, ?_, ?_, ?_⟩
  · intro y j hyT hjn hjf
    have hj₂ : s₂.status j = FROZEN := hfro' j hjf
    have hdj : s'.d j = s.d j := hdfro j hj₂
    by_cases hyl : y ∈ nbrList m x
    · have h1 := hble y hyT hyl
      obtain ⟨u, hu, hule⟩ := contributors_le_of_frozen_nbr m s₂ y j hjn hj₂
      have h2 := updateNode_le_contributor m s₂ y hh u hu
      have h3 : s₂.d j = s.d j := hd₂ j
      rw [hdj]
      linarith
    · rcases htrial' y hyT with ⟨hyl', _, _⟩ | ⟨hT, hyx⟩
      · exact absurd hyl' hyl
      · have hdy : s'.d y = s.d y := by
          rw [hs', foldl_updateNeighbour_d_not_mem m (nbrList m x) s₂ y hyl, hd₂ y]
        rcases hfro'' j hj₂ with hjx | hjF
        · exfalso
          subst hjx
          exact hyl (nbrList_symm m hsym y j hjn)
        · rw [hdy, hdj]
          exact hM.1 y j hT hjn hjF
  · intro y hyT
    have hcongr : updateNode m s' y = updateNode m s₂ y :=
      (updateNode_congr m s₂ s' hfe y).symm
    rw [hcongr]
    by_cases hyl : y ∈ nbrList m x
    · exact hble y hyT hyl
    · rcases htrial' y hyT with ⟨hyl', _, _⟩ | ⟨hT, hyx⟩
      · exact absurd hyl' hyl
      · have hdy : s'.d y = s.d y := by
          rw [hs', foldl_updateNeighbour_d_not_mem m (nbrList m x) s₂ y hyl, hd₂ y]
        have hstab := updateNode_stable_not_nbr m hsym s x s₂ hst₂ hd₂ y hyl
        rw [hdy, hstab]
        exact hM.2.1 y hT
  · intro y hyN
    have hyN2 : s₂.status y = NONE ∧ ¬(y ∈ nbrList m x ∧ s₂.status y = NONE) := by
      have hy := hyN
      rw [hstat' y] at hy
      by_cases hc : y ∈ nbrList m x ∧ s₂.status y = NONE
      · rw [if_pos hc] at hy
        cases hy
      · rw [if_neg hc] at hy
        exact ⟨hy, hc⟩
    have hyl : y ∉ nbrList m x := fun hl => hyN2.2 ⟨hl, hyN2.1⟩
    have hsN : s.status y = NONE := by
      have h2 := hyN2.1
      rw [hst₂ y, Function.update_apply] at h2
      by_cases hyx : y = x
      · rw [if_pos hyx] at h2
        cases h2
      · rw [if_neg hyx] at h2
        exact h2
    rintro ⟨j, hjn, hjf⟩
    have hj₂ := hfro' j hjf
    rcases hfro'' j hj₂ with hjx | hjF
    · subst hjx
      exact hyl (nbrList_symm m hsym y j hjn)
    · exact hM.2.2.1 y hsN ⟨j, hjn, hjF⟩
  · intro y hyT
    rcases htrial' y hyT with ⟨hyl, hN, hyx⟩ | ⟨hT, hyx⟩
    · have hdy : s'.d y = updateNode m s₂ y := by
        rw [hs']
        apply foldl_d_none_eq m s₂ (nbrList m x) s₂ (FrozenEq_refl s₂) y ?_ hyl
        rw [hst₂ y, Function.update_apply, if_neg hyx]
        exact hN
      rw [hdy]
      exact hge y (Or.inr ⟨hN, hyl⟩)
    · rw [hs']
      rcases foldl_d_dichotomy m s₂ (nbrList m x) s₂ (FrozenEq_refl s₂) y with hdy | hdy
      · rw [hdy, hd₂ y]
        exact hmin y ((hQ.1 y).mpr hT)
      · rw [hdy]
        exact hge y (Or.inl hT)
theorem trialSt_FrozenEq_init (m : Mesh) (φ : ℕ → ℝ) (masked : ℕ → Bool) (vel : ℕ → ℝ) :
    FrozenEq (initSt m φ masked vel) (trialSt m φ masked vel) := by
  intro j
  by_cases hc : (initSt m φ masked vel).status j = NONE ∧
      hasFrozenNbr m (initSt m φ masked vel) j
  · have hst : (trialSt m φ masked vel).status j = TRIAL := by
      show (if _ then TRIAL else _) = TRIAL
      rw [if_pos hc]
    constructor
    · constructor
      · intro hf
        rw [hc.1] at hf
        cases hf
      · intro hf
        rw [hst] at hf
        cases hf
    · intro hf
      rw [hc.1] at hf
      cases hf
  · have hst : (trialSt m φ masked vel).status j = (initSt m φ masked vel).status j := by
      show (if _ then TRIAL else _) = _
      rw [if_neg hc]
    have hd : (trialSt m φ masked vel).d j = (initSt m φ masked vel).d j := by
      show (if _ then _ else _) = _
      rw [if_neg hc]
    exact ⟨by rw [hst], fun _ => hd.symm⟩

theorem trialSt_MonoInv (m : Mesh) (φ : ℕ → ℝ) (masked : ℕ → Bool) (vel : ℕ → ℝ)
    (hh : 0 < m.h) : MonoInv m 0 (trialSt m φ masked vel) := by
  have hfe := trialSt_FrozenEq_init m φ masked vel
  refine ⟨?_, ?_, ?_, ?_⟩
  · intro y j hyT hjn hjf
    have hcy := trialSt_status_trial m φ masked vel y hyT
    have hdy : (trialSt m φ masked vel).d y = updateNode m (initSt m φ masked vel) y := by
      show (if _ then updateNode m _ y else _) = _
      rw [if_pos hcy]
    have hjf' : (initSt m φ masked vel).status j = FROZEN := (hfe j).1.mpr hjf
    have hdj : (initSt m φ masked vel).d j = (trialSt m φ masked vel).d j := (hfe j).2 hjf'
    obtain ⟨u, hu, hule⟩ :=
      contributors_le_of_frozen_nbr m (initSt m φ masked vel) y j hjn hjf'
    have h2 := updateNode_le_contributor m (initSt m φ masked vel) y hh u hu
    rw [hdy, ← hdj]
    linarith
  · intro y hyT
    have hcy := trialSt_status_trial m φ masked vel y hyT
    have hdy : (trialSt m φ masked vel).d y = updateNode m (initSt m φ masked vel) y := by
      show (if _ then updateNode m _ y else _) = _
      rw [if_pos hcy]
    rw [hdy]
    exact le_of_eq (updateNode_congr m (initSt m φ masked vel) (trialSt m φ masked vel) hfe y)
  · intro y hyN
    have h2 := trialSt_status_none m φ masked vel y hyN
    have hcond : ¬((initSt m φ masked vel).status y = NONE ∧
        hasFrozenNbr m (initSt m φ masked vel) y) := by
      intro hc
      have hT : (trialSt m φ masked vel).status y = TRIAL := by
        show (if _ then TRIAL else _) = TRIAL
        rw [if_pos hc]
      rw [hyN] at hT
      cases hT
    have hnf : ¬hasFrozenNbr m (initSt m φ masked vel) y := fun hf => hcond ⟨h2.1, hf⟩
    rintro ⟨j, hjn, hjf⟩
    exact hnf ⟨j, hjn, (hfe j).1.mpr hjf⟩
  · intro y hyT
    exact le_of_lt (trialSt_PInv m φ masked vel hh y (Or.inl hyT))

theorem solveAux_sorted (m : Mesh) (isVel : Bool) (hsym : m.Symm) (hh : 0 < m.h) :
    ∀ (fuel : ℕ) (s : St) (dLast : ℝ), QInv s → MonoInv m dLast s →
      List.Sorted (fun a b => a ≤ b) (solveAux m isVel fuel s).1 ∧
        ∀ z ∈ (solveAux m isVel fuel s).1, dLast ≤ z := by
  intro fuel
  induction fuel with
  | zero =>
    intro s dLast _ _
    refine ⟨List.sorted_nil, ?_⟩
    intro z hz
    cases hz
  | succ fuel ih =>
    intro s dLast hQ hM
    unfold solveAux
    cases hstep : solveStep m isVel s with
    | none =>
      refine ⟨List.sorted_nil, ?_⟩
      intro z hz
      cases hz
    | some r =>
      obtain ⟨hdl, hM'⟩ :=
        solveStep_MonoInv m isVel s r.1 r.2 (by rw [hstep]) hsym hh hQ dLast hM
      have hQ' := solveStep_QInv m isVel s r.1 r.2 (by rw [hstep]) hQ
      obtain ⟨hsorted, hge⟩ := ih r.2 r.1 hQ' hM'
      constructor
      · show List.Sorted _ (r.1 :: (solveAux m isVel fuel r.2).1)
        rw [List.sorted_cons]
        exact ⟨hge, hsorted⟩
      · show ∀ z ∈ r.1 :: (solveAux m isVel fuel r.2).1, dLast ≤ z
        intro z hz
        rcases List.mem_cons.mp hz with rfl | hz'
        · exact hdl
        · exact le_trans hdl (hge z hz')

/-- C1 (amended): over the propagation loop of any run, the sequence of keys
at the moments nodes are frozen — the popped queue minima — is
non-decreasing.  The amendment drops the initialiser's freeze sequence from
the claim: the initialiser freezes boundary nodes in mesh scan order, and
that prefix of the whole-run freeze order need not be monotone (see the
counterexample). -/
theorem monotone_freeze_order (m : Mesh) (isVel : Bool) (φ : ℕ → ℝ)
    (masked : ℕ → Bool) (vel : ℕ → ℝ) (hwf : m.WF) (hsym : m.Symm) (hh : 0 < m.h) :
    List.Sorted (fun a b => a ≤ b) (popSeq m isVel φ masked vel) := by
  unfold popSeq
  exact (solveAux_sorted m isVel hsym hh m.nNodes (trialSt m φ masked vel) 0
    (trialSt_QInv m φ masked vel hwf) (trialSt_MonoInv m φ masked vel hh)).1

theorem monotone_freeze_order_witness :
    (lineMesh 2 2).WF ∧ (lineMesh 2 2).Symm ∧ (0 : ℝ) < (lineMesh 2 2).h ∧
      List.Sorted (fun a b => a ≤ b)
        (popSeq (lineMesh 2 2) false phiHalf noMask velThree) :=
  ⟨lineMesh_WF 2 2, lineMesh_Symm 2 2, by norm_num [lineMesh],
    monotone_freeze_order (lineMesh 2 2) false phiHalf noMask velThree (lineMesh_WF 2 2)
      (lineMesh_Symm 2 2) (by norm_num [lineMesh])⟩
theorem solveAux_fst_empty (m : Mesh) (isVel : Bool) (k : ℕ) (s : St) (h : s.q = []) :
    (solveAux m isVel k s).1 = [] := by
  cases k with
  | zero => rfl
  | succ k =>
    unfold solveAux
    rw [(solveStep_none_iff m isVel s).mpr h]

theorem lineNine_boundaryDist0 : boundaryDist (lineMesh 2 1) phiNine 0 = some (9 / 10) := by
  have h0 : edgeContribution (lineMesh 2 1) phiNine 0 false false = Option.none := rfl
  have h1 : edgeContribution (lineMesh 2 1) phiNine 0 false true = some (9 / 10) := by
    have hj : (lineMesh 2 1).neighbour 0 false true = some 1 := rfl
    rw [edgeContribution_eq (lineMesh 2 1) phiNine 0 false true 1 hj
      (by norm_num [phiNine])]
    congr 1
    rw [show phiNine 0 - phiNine 1 = -1 from by norm_num [phiNine],
      show phiNine 0 = -((9 : ℝ) / 10) from by norm_num [phiNine]]
    rw [abs_neg, abs_neg, abs_one, abs_of_nonneg (by norm_num : (0 : ℝ) ≤ 9 / 10)]
    show (1 : ℝ) * (9 / 10) / 1 = 9 / 10
    norm_num
  have hax0 : axisBoundaryDist (lineMesh 2 1) phiNine 0 false = some (9 / 10) := by
    unfold axisBoundaryDist
    rw [h0, h1]
  have hax1 : axisBoundaryDist (lineMesh 2 1) phiNine 0 true = Option.none := rfl
  unfold boundaryDist
  rw [hax0, hax1]

theorem lineNine_boundaryDist1 : boundaryDist (lineMesh 2 1) phiNine 1 = some (1 / 10) := by
  have h0 : edgeContribution (lineMesh 2 1) phiNine 1 false false = some (1 / 10) := by
    have hj : (lineMesh 2 1).neighbour 1 false false = some 0 := rfl
    rw [edgeContribution_eq (lineMesh 2 1) phiNine 1 false false 0 hj
      (by norm_num [phiNine])]
    congr 1
    rw [show phiNine 1 - phiNine 0 = 1 from by norm_num [phiNine],
      show phiNine 1 = (1 : ℝ) / 10 from by norm_num [phiNine]]
    rw [abs_one, abs_of_nonneg (by norm_num : (0 : ℝ) ≤ 1 / 10)]
    show (1 : ℝ) * (1 / 10) / 1 = 1 / 10
    norm_num
  have h1 : edgeContribution (lineMesh 2 1) phiNine 1 false true = Option.none := rfl
  have hax0 : axisBoundaryDist (lineMesh 2 1) phiNine 1 false = some (1 / 10) := by
    unfold axisBoundaryDist
    rw [h0, h1]
  have hax1 : axisBoundaryDist (lineMesh 2 1) phiNine 1 true = Option.none := rfl
  unfold boundaryDist
  rw [hax0, hax1]

theorem lineNine_initSt (vel : ℕ → ℝ) :
    (initSt (lineMesh 2 1) phiNine noMask vel).status 0 = FROZEN ∧
    (initSt (lineMesh 2 1) phiNine noMask vel).status 1 = FROZEN ∧
    (initSt (lineMesh 2 1) phiNine noMask vel).d 0 = 9 / 10 ∧
    (initSt (lineMesh 2 1) phiNine noMask vel).d 1 = 1 / 10 := by
  unfold initSt
  dsimp only
  rw [lineNine_boundaryDist0, lineNine_boundaryDist1]
  simp [noMask]

theorem lineNine_initFreezeSeq (vel : ℕ → ℝ) :
    initFreezeSeq (lineMesh 2 1) phiNine noMask vel = [9 / 10, 1 / 10] := by
  obtain ⟨hs0, hs1, hd0, hd1⟩ := lineNine_initSt vel
  have e : initFreezeSeq (lineMesh 2 1) phiNine noMask vel =
      ((List.range 2).filter fun i =>
        decide ((initSt (lineMesh 2 1) phiNine noMask vel).status i = FROZEN)).map
        (initSt (lineMesh 2 1) phiNine noMask vel).d := rfl
  have hf : ((List.range 2).filter fun i =>
      decide ((initSt (lineMesh 2 1) phiNine noMask vel).status i = FROZEN)) = [0, 1] := by
    rw [show List.range 2 = [0, 1] from rfl, List.filter_cons, List.filter_cons,
      List.filter_nil, if_pos (decide_eq_true hs0), if_pos (decide_eq_true hs1)]
  rw [e, hf]
  show [(initSt (lineMesh 2 1) phiNine noMask vel).d 0,
    (initSt (lineMesh 2 1) phiNine noMask vel).d 1] = [9 / 10, 1 / 10]
  rw [hd0, hd1]

theorem lineNine_trialSt_q (vel : ℕ → ℝ) :
    (trialSt (lineMesh 2 1) phiNine noMask vel).q = [] := by
  show List.filter _ _ = []
  rw [List.filter_eq_nil_iff]
  intro a ha
  rw [List.mem_range] at ha
  have ha' : a < 2 := ha
  simp only [decide_eq_true_eq, not_and]
  intro hnone
  exfalso
  have ha2 : a = 0 ∨ a = 1 := by omega
  rcases ha2 with rfl | rfl
  · rw [(lineNine_initSt vel).1] at hnone
    cases hnone
  · rw [(lineNine_initSt vel).2.1] at hnone
    cases hnone

theorem lineNine_freezeSeq (vel : ℕ → ℝ) :
    freezeSeq (lineMesh 2 1) false phiNine noMask vel = [9 / 10, 1 / 10] := by
  unfold freezeSeq
  rw [lineNine_initFreezeSeq vel]
  have hp : popSeq (lineMesh 2 1) false phiNine noMask vel = [] := by
    unfold popSeq
    exact solveAux_fst_empty (lineMesh 2 1) false _ _ (lineNine_trialSt_q vel)
  rw [hp]
  rfl

/-- The whole-run freeze-order monotonicity claim fails as stated: on a
two-node line with spacing 1 and input values −9/10, +1/10 the initialiser
freezes node 0 at distance 9/10 and then node 1 at distance 1/10, so the
freeze-order distance sequence [9/10, 1/10] over the full run decreases. -/
theorem monotone_freeze_order_counterexample :
    ¬List.Sorted (fun a b => a ≤ b)
      (freezeSeq (lineMesh 2 1) false phiNine noMask velThree) := by
  rw [lineNine_freezeSeq velThree]
  intro h
  rw [List.sorted_cons] at h
  have h2 := h.1 (1 / 10) (List.mem_cons_self _ _)
  norm_num at h2
end FMM
